import Mathlib

/-!
# Verification of the WeddingLayout seating model (`src/App.tsx`)

This file gives a shallow embedding of the seating-state model of the
WeddingLayout application and proves / refutes the frozen claims about it.

Modelling conventions:
* JavaScript numbers are modelled by `JsNum`: exact rationals plus the three
  non-finite values `NaN`, `Infinity`, `-Infinity`.  Floating-point rounding
  is not modelled; none of the verified properties depends on it.
* JavaScript objects with string keys are modelled by ordered association
  lists (`AssignMap` and the `obj` constructor of `JsonValue`).  Property
  assignment updates an existing key in place and appends a fresh key at the
  end, matching JS insertion-order semantics for non-index keys.
* React state updates of one handler together with the `useEffect` passes
  that fire after them (pool reconciliation and selection pruning) are
  modelled as one pure state transformation.
* `Number(string)` conversion is modelled for trimmed decimal literals and
  `Infinity`; hexadecimal/exponent literal forms are outside the modelled
  scope (they are never produced by the application itself).
-/

namespace WeddingLayout

/-- A JavaScript number: a finite rational or one of the non-finite values. -/
inductive JsNum where
  | nan
  | inf
  | negInf
  | num (q : ℚ)
deriving DecidableEq, Repr

/-- `Number.isNaN`. -/
def JsNum.isNaN : JsNum → Bool
  | .nan => true
  | _ => false

/-- `Number.isFinite`. -/
def JsNum.isFinite : JsNum → Bool
  | .num _ => true
  | _ => false

/-- `Number.isFinite(x) ? x : 0` — the coercion applied to table positions. -/
def JsNum.finiteOr0 : JsNum → ℚ
  | .num q => q
  | _ => 0

/-- `Math.floor`. -/
def JsNum.floor : JsNum → JsNum
  | .num q => .num (⌊q⌋ : ℤ)
  | n => n

/-- `Math.max(1, ·)` (NaN propagates, `-Infinity` becomes 1). -/
def JsNum.max1 : JsNum → JsNum
  | .nan => .nan
  | .inf => .inf
  | .negInf => .num 1
  | .num q => .num (max 1 q)

/-- A parsed JSON value / in-memory JS value fed to the normalizer.
`obj` models an object after `JSON.parse`, so its keys are unique and listed
in insertion order. -/
inductive JsonValue where
  | null
  | bool (b : Bool)
  | num (n : JsNum)
  | str (s : String)
  | arr (elems : List JsonValue)
  | obj (fields : List (String × JsonValue))

/-- Property access `record.k` on an object field list (first match). -/
def lookupField : List (String × JsonValue) → String → Option JsonValue
  | [], _ => none
  | (k', v) :: rest, k => if k' = k then some v else lookupField rest k

/-- A guest record. -/
structure Guest where
  id : String
  name : String
  details : Option String
deriving DecidableEq, Repr

/-- A table record (positions are the finite canvas coordinates). -/
structure Table where
  id : String
  seatCount : Nat
  posX : ℚ
  posY : ℚ
deriving DecidableEq, Repr

/-- The guest-id list of a guest list. -/
def gids (gs : List Guest) : List String := gs.map (·.id)

/-- The assignment map: ordered association list from seat key to
`guestId | null`, mirroring the JS object `Record<string, string | null>`. -/
abbrev AssignMap := List (String × Option String)

/-- Map lookup (`m[k]`): `none` means the key is absent (`undefined`),
`some none` means the key holds `null`. -/
def amLookup : AssignMap → String → Option (Option String)
  | [], _ => none
  | (k', v) :: rest, k => if k' = k then some v else amLookup rest k

/-- Property assignment `m[k] = v`: update in place, else append. -/
def amSet : AssignMap → String → Option String → AssignMap
  | [], k, v => [(k, v)]
  | (k', v') :: rest, k, v =>
    if k' = k then (k, v) :: rest else (k', v') :: amSet rest k v

/-- `delete m[k]`. -/
def amDelete (m : AssignMap) (k : String) : AssignMap :=
  m.filter (fun kv => decide (kv.1 ≠ k))

/-- `Object.keys m`. -/
def amKeys (m : AssignMap) : List String := m.map (·.1)

/-- The non-null values of the map, in key order. -/
def assignedVals (m : AssignMap) : List String := m.filterMap (·.2)

/-- JS truthiness of `m[k]`: the occupant, provided the key is present and
holds a non-empty guest id string. -/
def truthyVal : Option String → Option String
  | some g => if g = "" then none else some g
  | none => none

/-- Truthy lookup `m[k]` as used by occupancy tests in the source. -/
def truthyLookup (m : AssignMap) (k : String) : Option String :=
  match amLookup m k with
  | some v => truthyVal v
  | none => none

/-- `seatKey(tableId, seatIndex)` from the source:
`` `${tableId}:${seatIndex}` ``. -/
def seatKey (tableId : String) (seatIndex : Nat) : String :=
  tableId ++ ":" ++ toString seatIndex

/-!
## Decimal representation facts

`seatKey` concatenates the decimal representation of the seat index.  To
reason about key collisions and prefix matches we prove that `Nat.repr`
produces digit characters only and is injective.
-/

/-- Reference decimal digit-list of a natural number. -/
def digitsRec (n : Nat) : List Char :=
  if n < 10 then [Nat.digitChar n]
  else digitsRec (n / 10) ++ [Nat.digitChar (n % 10)]
  termination_by n
  decreasing_by
    exact Nat.div_lt_self (by omega) (by omega)

theorem digitsRec_ne_nil (n : Nat) : digitsRec n ≠ [] := by
  unfold digitsRec
  split <;> simp

theorem toDigitsCore_eq_digitsRec :
    ∀ (fuel n : Nat) (acc : List Char), n < fuel →
      Nat.toDigitsCore 10 fuel n acc = digitsRec n ++ acc := by
  intro fuel
  induction fuel with
  | zero => intro n acc h; omega
  | succ f ih =>
    intro n acc h
    unfold Nat.toDigitsCore
    by_cases h10 : n < 10
    · have hdiv : n / 10 = 0 := Nat.div_eq_of_lt h10
      simp only [hdiv, if_pos rfl]
      unfold digitsRec
      simp only [if_pos h10]
      have : n % 10 = n := Nat.mod_eq_of_lt h10
      simp [this]
    · have hdiv : n / 10 ≠ 0 := by
        have : 1 ≤ n / 10 := (Nat.one_le_div_iff (by omega)).mpr (by omega)
        omega
      simp only [if_neg hdiv]
      have hlt : n / 10 < f := by
        have h1 : n / 10 < n := Nat.div_lt_self (by omega) (by omega)
        omega
      rw [ih (n / 10) (Nat.digitChar (n % 10) :: acc) hlt]
      conv_rhs => rw [digitsRec]
      simp only [if_neg h10]
      simp

theorem natRepr_eq_digitsRec (n : Nat) :
    (Nat.repr n).data = digitsRec n := by
  show (Nat.toDigits 10 n).asString.data = digitsRec n
  unfold Nat.toDigits
  rw [toDigitsCore_eq_digitsRec (n + 1) n [] (Nat.lt_succ_self n)]
  simp [List.asString]

theorem digitChar_isDigit {d : Nat} (h : d < 10) :
    (Nat.digitChar d).isDigit = true := by
  interval_cases d <;> decide

theorem digitsRec_all_digit (n : Nat) :
    ∀ c ∈ digitsRec n, c.isDigit = true := by
  induction n using Nat.strong_induction_on with
  | _ n ih =>
    intro c hc
    unfold digitsRec at hc
    split at hc
    · rcases List.mem_singleton.mp hc with rfl
      exact digitChar_isDigit (by omega)
    · rcases List.mem_append.mp hc with h1 | h2
      · exact ih (n / 10) (Nat.div_lt_self (by omega) (by omega)) c h1
      · rcases List.mem_singleton.mp h2 with rfl
        exact digitChar_isDigit (Nat.mod_lt _ (by omega))

theorem natRepr_all_digit (n : Nat) :
    ∀ c ∈ (Nat.repr n).data, c.isDigit = true := by
  rw [natRepr_eq_digitsRec]; exact digitsRec_all_digit n

theorem colon_not_mem_natRepr (n : Nat) : ':' ∉ (Nat.repr n).data := by
  intro h
  have := natRepr_all_digit n ':' h
  simp [Char.isDigit] at this

/-- Numeric value of a decimal digit list. -/
def digitsVal (l : List Char) : Nat :=
  l.foldl (fun a c => 10 * a + (c.toNat - 48)) 0

theorem digitsVal_foldl (l : List Char) (a : Nat) :
    l.foldl (fun a c => 10 * a + (c.toNat - 48)) a =
      a * 10 ^ l.length + digitsVal l := by
  induction l generalizing a with
  | nil => simp [digitsVal]
  | cons c cs ih =>
    simp only [List.foldl_cons, digitsVal, List.length_cons]
    rw [ih (10 * a + (c.toNat - 48)), ih (10 * 0 + (c.toNat - 48))]
    ring

theorem digitsVal_append_singleton (l : List Char) (c : Char) :
    digitsVal (l ++ [c]) = 10 * digitsVal l + (c.toNat - 48) := by
  unfold digitsVal
  rw [List.foldl_append]
  simp

theorem digitChar_val {d : Nat} (h : d < 10) :
    (Nat.digitChar d).toNat - 48 = d := by
  interval_cases d <;> decide

theorem digitsVal_digitsRec (n : Nat) : digitsVal (digitsRec n) = n := by
  induction n using Nat.strong_induction_on with
  | _ n ih =>
    unfold digitsRec
    split
    · next h =>
      show digitsVal [Nat.digitChar n] = n
      unfold digitsVal
      simp [digitChar_val h]
    · next h =>
      rw [digitsVal_append_singleton,
        ih (n / 10) (Nat.div_lt_self (by omega) (by omega)),
        digitChar_val (Nat.mod_lt _ (by omega))]
      omega

theorem natRepr_injective {m n : Nat} (h : Nat.repr m = Nat.repr n) : m = n := by
  have hd : digitsRec m = digitsRec n := by
    rw [← natRepr_eq_digitsRec, ← natRepr_eq_digitsRec, h]
  calc m = digitsVal (digitsRec m) := (digitsVal_digitsRec m).symm
    _ = digitsVal (digitsRec n) := by rw [hd]
    _ = n := digitsVal_digitsRec n

theorem string_data_append (s t : String) : (s ++ t).data = s.data ++ t.data := rfl

theorem seatKey_data (t : String) (i : Nat) :
    (seatKey t i).data = t.data ++ ':' :: (Nat.repr i).data := by
  show (t ++ ":" ++ toString i).data = _
  rw [string_data_append, string_data_append, List.append_assoc]
  rfl

theorem takeWhile_no_sep {x rest : List Char} (hx : ':' ∉ x) :
    (x ++ ':' :: rest).takeWhile (fun c => !(decide (c = ':'))) = x := by
  rw [List.takeWhile_append_of_pos]
  · simp [List.takeWhile_cons]
  · intro c hc
    simp only [Bool.not_eq_eq_eq_not, Bool.not_true, decide_eq_false_iff_not]
    intro hcc; subst hcc
    exact hx hc

/-- Splitting a list at its last `':'`-free tail is unambiguous. -/
theorem last_sep_decomp {a b da db : List Char}
    (hda : ':' ∉ da) (hdb : ':' ∉ db)
    (h : a ++ ':' :: da = b ++ ':' :: db) : a = b ∧ da = db := by
  have hrev : da.reverse ++ ':' :: a.reverse = db.reverse ++ ':' :: b.reverse := by
    have := congrArg List.reverse h
    simpa using this
  have hdd : da = db := by
    have h1 : da.reverse = db.reverse := by
      rw [← takeWhile_no_sep (List.mem_reverse.not.mpr hda),
        ← takeWhile_no_sep (List.mem_reverse.not.mpr hdb), hrev]
    exact List.reverse_inj.mp h1
  subst hdd
  have h2 : (':' :: a.reverse).reverse = (':' :: b.reverse).reverse := by
    rw [List.append_cancel_left hrev]
  refine ⟨?_, rfl⟩
  simp only [List.reverse_cons] at h2
  have h3 : a.reverse.reverse = b.reverse.reverse := List.append_cancel_right h2
  simpa using h3

theorem seatKey_injective {t u : String} {i j : Nat}
    (h : seatKey t i = seatKey u j) : t = u ∧ i = j := by
  have hdata : t.data ++ ':' :: (Nat.repr i).data =
      u.data ++ ':' :: (Nat.repr j).data := by
    have := congrArg String.data h
    rwa [seatKey_data, seatKey_data] at this
  have hsplit := last_sep_decomp (colon_not_mem_natRepr i) (colon_not_mem_natRepr j) hdata
  exact ⟨String.ext hsplit.1, natRepr_injective (String.ext hsplit.2)⟩

/-!
## `Number(string)` conversion

Modelled for whitespace-trimmed decimal literals (`digits`, `digits.digits`,
`.digits`, `digits.`) with optional sign, plus `Infinity`; any other string
yields `NaN`.  Exponent and radix-prefixed literal forms are out of the
modelled scope — the claims never depend on them.
-/

def isAsciiDigit (c : Char) : Bool := decide ('0' ≤ c ∧ c ≤ '9')

/-- Whitespace recognised by `String.prototype.trim`, modelled for the
ASCII whitespace characters. -/
def jsWhitespace (c : Char) : Bool :=
  decide (c = ' ' ∨ c = '\t' ∨ c = '\n' ∨ c = '\r' ∨ c = '\x0b' ∨ c = '\x0c')

/-- `s.trim()`. -/
def jsTrim (s : String) : String :=
  ⟨((s.data.dropWhile jsWhitespace).reverse.dropWhile jsWhitespace).reverse⟩

/-- Parse an unsigned decimal literal (entire input must be consumed). -/
def parseDecimal (l : List Char) : Option ℚ :=
  let intPart := l.takeWhile isAsciiDigit
  let rest := l.dropWhile isAsciiDigit
  match rest with
  | [] => if intPart = [] then none else some (digitsVal intPart : ℚ)
  | '.' :: frac =>
    if frac.all isAsciiDigit ∧ (intPart ≠ [] ∨ frac ≠ []) then
      some ((digitsVal intPart : ℚ) + (digitsVal frac : ℚ) / (10 ^ frac.length : ℚ))
    else none
  | _ => none

def parseSignedBody (l : List Char) (neg : Bool) : JsNum :=
  if l = "Infinity".data then (if neg then .negInf else .inf)
  else
    match parseDecimal l with
    | some q => .num (if neg then -q else q)
    | none => .nan

/-- `Number(s)` for a string argument. -/
def jsStringToNumber (s : String) : JsNum :=
  let t := jsTrim s
  if t = "" then .num 0
  else
    match t.data with
    | '+' :: rest => parseSignedBody rest false
    | '-' :: rest => parseSignedBody rest true
    | l => parseSignedBody l false

/-!
## The normalizer (`normalizeLayoutPayload`)
-/

/-- The live seating state replaced wholesale on import. -/
structure LayoutState where
  guests : List Guest
  tables : List Table
  assignments : AssignMap
  pool : List String
deriving DecidableEq, Repr

/-- Outcome of running `normalizeLayoutPayload` on a payload.  `invalid`
models the `null` return, `error` a thrown `TypeError`
(`Object.entries(null)`), `diverge` non-termination of the seat-key loop
(a kept table whose sanitized seat count is `Infinity`). -/
inductive NormResult where
  | invalid
  | error
  | diverge
  | ok (state : LayoutState)
deriving DecidableEq, Repr

/-- `typeof v === 'object'` (arrays and `null` included). -/
def typeofIsObject : JsonValue → Bool
  | .obj _ => true
  | .arr _ => true
  | .null => true
  | _ => false

/-- View a value the way `record.field` access treats it after the
`typeof item === 'object' && item !== null` test: objects expose their
fields, arrays expose no (non-index) named fields. -/
def asRecord : JsonValue → Option (List (String × JsonValue))
  | .obj fs => some fs
  | .arr _ => some []
  | _ => none

/-- The seat-count candidate: number kept, string converted, others `NaN`. -/
def seatCountNum : Option JsonValue → JsNum
  | some (.num n) => n
  | some (.str s) => jsStringToNumber s
  | _ => .nan

/-- A position coordinate candidate: number kept, string converted,
missing/other `0`. -/
def coordNum : Option JsonValue → JsNum
  | some (.num n) => n
  | some (.str s) => jsStringToNumber s
  | _ => .num 0

/-- A cleaned table before the seat-key loop runs; the sanitized seat count
`Math.max(1, Math.floor(·))` is still a `JsNum` because the source never
checks finiteness. -/
structure RawCleanTable where
  id : String
  seatCount : JsNum
  posX : ℚ
  posY : ℚ
deriving DecidableEq, Repr

/-- Per-table cleaning step of the normalizer. -/
def cleanTable (item : JsonValue) : Option RawCleanTable :=
  match asRecord item with
  | none => none
  | some r =>
    let id := match lookupField r "id" with | some (.str s) => s | _ => ""
    let sc := seatCountNum (lookupField r "seatCount")
    let posR : Option (List (String × JsonValue)) :=
      match lookupField r "position" with
      | some v => asRecord v
      | none => none
    let x := coordNum (posR.bind (fun fs => lookupField fs "x"))
    let y := coordNum (posR.bind (fun fs => lookupField fs "y"))
    if id = "" ∨ sc.isNaN = true then none
    else some ⟨id, sc.floor.max1, x.finiteOr0, y.finiteOr0⟩

/-- Per-guest cleaning step of the normalizer. -/
def cleanGuest (item : JsonValue) : Option Guest :=
  match asRecord item with
  | none => none
  | some r =>
    let id := match lookupField r "id" with | some (.str s) => s | _ => ""
    let name := match lookupField r "name" with | some (.str s) => s | _ => ""
    if id = "" ∨ name = "" then none
    else
      some ⟨id, name,
        match lookupField r "details" with | some (.str s) => some s | _ => none⟩

/-- Convert a kept, finite cleaned table to a live table. -/
def toTable (t : RawCleanTable) : Table :=
  { id := t.id,
    seatCount := match t.seatCount with | .num q => ⌊q⌋.toNat | _ => 0,
    posX := t.posX, posY := t.posY }

/-- `buildEmptyAssignments`: one `null` entry per seat key of each table. -/
def buildEmptyAssignments (tables : List Table) : AssignMap :=
  tables.foldl
    (fun m t =>
      (List.range t.seatCount).foldl (fun m2 i => amSet m2 (seatKey t.id i) none) m)
    []

/-- `Object.entries(v)`; `none` models the `TypeError` thrown on `null`. -/
def entriesOf : JsonValue → Option (List (String × JsonValue))
  | .obj fs => some fs
  | .arr xs => some (xs.enum.map (fun p => (Nat.repr p.1, p.2)))
  | _ => none

/-- Populate the rebuilt assignment map from the raw `assignments` entries. -/
def populateAssignments (guestIdsList : List String) (base : AssignMap)
    (entries : List (String × JsonValue)) : AssignMap :=
  entries.foldl
    (fun m kv =>
      if (amLookup m kv.1).isSome then
        match kv.2 with
        | .str v => if v ∈ guestIdsList then amSet m kv.1 (some v) else amSet m kv.1 none
        | _ => amSet m kv.1 none
      else m)
    base

/-- First pool pass: previous-pool entries that are unassigned, known and
unseen, threading the `seen` set.  Returns the kept entries and final seen
set. -/
def reconcileFold (assigned gds : List String) :
    List String → List String → List String × List String
  | seen, [] => ([], seen)
  | seen, g :: gs =>
    if g ∉ assigned ∧ g ∈ gds ∧ g ∉ seen then
      let r := reconcileFold assigned gds (g :: seen) gs
      (g :: r.1, r.2)
    else reconcileFold assigned gds seen gs

/-- Second pool pass: append remaining unassigned, unseen guest ids. -/
def reconcileFold2 (assigned : List String) :
    List String → List String → List String
  | _, [] => []
  | seen, g :: gs =>
    if g ∉ assigned ∧ g ∉ seen then g :: reconcileFold2 assigned (g :: seen) gs
    else reconcileFold2 assigned seen gs

/-- Pool computed by the normalizer from a raw `unassigned` snapshot. -/
def normalizePool (guestIdsList assignedSet poolSnapshot : List String) :
    List String :=
  let r := reconcileFold assignedSet guestIdsList [] poolSnapshot
  r.1 ++ reconcileFold2 assignedSet r.2 guestIdsList

/-- The raw `unassigned` snapshot list: its string elements, in order. -/
def poolSnapshotOf (fields : List (String × JsonValue)) : List String :=
  match lookupField fields "unassigned" with
  | some (.arr xs) =>
    xs.filterMap (fun v => match v with | .str s => some s | _ => none)
  | _ => []

/-- Body of the normalizer after the structural guards. -/
def normalizeBody (fields : List (String × JsonValue))
    (rawTables rawGuests : List JsonValue) (assignmentsVal : JsonValue) :
    NormResult :=
  let cleanedTables := rawTables.filterMap cleanTable
  let cleanedGuests := rawGuests.filterMap cleanGuest
  if cleanedGuests = [] then .invalid
  else if cleanedTables.any (fun t => t.seatCount == JsNum.inf) then .diverge
  else
    let tables := cleanedTables.map toTable
    let guestIdsList := gids cleanedGuests
    match entriesOf assignmentsVal with
    | none => .error
    | some entries =>
      let normalizedAssignments :=
        populateAssignments guestIdsList (buildEmptyAssignments tables) entries
      let assignedSet := (assignedVals normalizedAssignments).filter
        (fun g => decide (g ∈ guestIdsList))
      .ok { guests := cleanedGuests, tables := tables,
            assignments := normalizedAssignments,
            pool := normalizePool guestIdsList assignedSet (poolSnapshotOf fields) }

/-- `normalizeLayoutPayload` from the source. -/
def normalizeLayoutPayload (payload : JsonValue) : NormResult :=
  match payload with
  | .obj fields =>
    match lookupField fields "tables", lookupField fields "guests",
        lookupField fields "assignments" with
    | some (.arr rawTables), some (.arr rawGuests), some assignmentsVal =>
      if typeofIsObject assignmentsVal then
        normalizeBody fields rawTables rawGuests assignmentsVal
      else .invalid
    | _, _, _ => .invalid
  | _ => .invalid

/-!
## The live model state and its operations
-/

/-- The in-memory application state: the seating model plus the ephemeral
seat selection. -/
structure AppState where
  guests : List Guest
  tables : List Table
  assignments : AssignMap
  pool : List String
  selected : List String
deriving DecidableEq, Repr

/-- `Array.from(new Set(l))`: first-occurrence de-duplication. -/
def dedupFirstAux (seen : List String) : List String → List String
  | [] => []
  | x :: xs =>
    if x ∈ seen then dedupFirstAux seen xs else x :: dedupFirstAux (x :: seen) xs

def dedupFirst (l : List String) : List String := dedupFirstAux [] l

/-- `returnGuestsToPool`: de-duplicate, drop unknown ids, front-insert. -/
def returnGuestsToPool (guests : List Guest) (pool : List String)
    (guestIds : List String) : List String :=
  let uniqueIds := dedupFirst guestIds
  if uniqueIds = [] then pool
  else
    let filtered := pool.filter (fun g => decide (g ∉ uniqueIds))
    let additions := uniqueIds.filter (fun g => decide (g ∈ gids guests))
    additions ++ filtered

/-- The pool-reconciliation `useEffect` body: the same two passes as the
normalizer pool, with the assigned set computed from the live assignments. -/
def reconcilePool (guests : List Guest) (a : AssignMap) (prevPool : List String) :
    List String :=
  normalizePool (gids guests)
    ((assignedVals a).filter (fun g => decide (g ∈ gids guests))) prevPool

/-- The `useEffect` passes that follow every assignments/guests change:
pool reconciliation and selection pruning (`clearSelectionIfMissing`). -/
def runEffects (s : AppState) : AppState :=
  { s with
    pool := reconcilePool s.guests s.assignments s.pool,
    selected := s.selected.filter (fun k => (truthyLookup s.assignments k).isSome) }

/-- `assignGuestToSeat(guestId, tableId, seatIndex, fromSeatKey?)` together
with the follow-up effects. -/
def assignGuestToSeat (s : AppState) (guestId tableId : String)
    (seatIndex : Nat) (fromSeat : Option String) : AppState :=
  let key := seatKey tableId seatIndex
  if guestId ∈ gids s.guests then
    let displaced := truthyLookup s.assignments key
    let a1 := amSet s.assignments key (some guestId)
    let a2 := match fromSeat with
      | some f => amSet a1 f none
      | none => a1
    let pool1 := match displaced with
      | some d => if d ≠ guestId then returnGuestsToPool s.guests s.pool [d] else s.pool
      | none => s.pool
    runEffects { s with assignments := a2, pool := pool1, selected := [key] }
  else s

/-- One seat of the release loop: clear an occupied seat, collecting the
occupant. -/
def releaseStep (acc : AssignMap × List String) (seat : String) :
    AssignMap × List String :=
  match truthyLookup acc.1 seat with
  | some g => (amSet acc.1 seat none, acc.2 ++ [g])
  | none => acc

/-- `releaseSelectedSeats` generalized over the seat-key batch it operates
on (the handler instantiates it with the current selection). -/
def releaseSeats (s : AppState) (keys : List String) : AppState :=
  if keys = [] then s
  else
    let step := keys.foldl releaseStep (s.assignments, [])
    runEffects { s with
      assignments := step.1,
      pool := returnGuestsToPool s.guests s.pool step.2,
      selected := [] }

/-- `releaseSelectedSeats` proper. -/
def releaseSelectedSeats (s : AppState) : AppState := releaseSeats s s.selected

/-- `Math.max(1, Math.min(24, Math.floor(n)))` from `updateSeatCount`. -/
def sanitizeSeatCount (q : ℚ) : Nat := (max 1 (min 24 ⌊q⌋)).toNat

/-- One removed seat of the shrink loop: read the occupant, then delete the
key. -/
def shrinkStep (tid : String) (acc : AssignMap × List String) (j : Nat) :
    AssignMap × List String :=
  let k := seatKey tid j
  (amDelete acc.1 k,
   match truthyLookup acc.1 k with
   | some g => acc.2 ++ [g]
   | none => acc.2)

/-- One added seat of the grow loop: a fresh empty entry. -/
def growStep (tid : String) (m : AssignMap) (j : Nat) : AssignMap :=
  amSet m (seatKey tid j) none

/-- `updateSeatCount(tableId, newSeatCount)` together with the follow-up
effects. -/
def updateSeatCount (s : AppState) (tableId : String) (requested : ℚ) : AppState :=
  let sanitized := sanitizeSeatCount requested
  match s.tables.find? (fun e => decide (e.id = tableId)) with
  | none => s
  | some table =>
    if sanitized = table.seatCount then s
    else
      let tables1 := s.tables.map
        (fun e => if e.id = tableId then { e with seatCount := sanitized } else e)
      let step : AssignMap × List String :=
        if sanitized < table.seatCount then
          (List.range' sanitized (table.seatCount - sanitized)).foldl
            (shrinkStep table.id) (s.assignments, [])
        else
          ((List.range' table.seatCount (sanitized - table.seatCount)).foldl
            (growStep table.id) s.assignments, [])
      runEffects { s with
        tables := tables1,
        assignments := step.1,
        pool := returnGuestsToPool s.guests s.pool step.2 }

/-- `key.startsWith(p)`. -/
def strStartsWith (k p : String) : Bool := p.data.isPrefixOf k.data

/-- `handleRemoveTable(tableId)` together with the follow-up effects. -/
def handleRemoveTable (s : AppState) (tableId : String) : AppState :=
  let p := tableId ++ ":"
  let removedEntries := s.assignments.filter (fun kv => strStartsWith kv.1 p)
  let returning := removedEntries.filterMap (fun kv => truthyVal kv.2)
  let a1 := s.assignments.filter (fun kv => !(strStartsWith kv.1 p))
  runEffects { s with
    assignments := a1,
    pool := returnGuestsToPool s.guests s.pool returning,
    tables := s.tables.filter (fun t => decide (t.id ≠ tableId)),
    selected := s.selected.filter (fun k => !(strStartsWith k p)) }

/-- The model operations quantified over by the invariant claim. -/
inductive Op where
  | assign (guestId tableId : String) (seatIndex : Nat) (fromSeat : Option String)
  | release (keys : List String)
  | resize (tableId : String) (requested : ℚ)
  | remove (tableId : String)

/-- Run one model operation (including its follow-up effects). -/
def applyOp (s : AppState) : Op → AppState
  | .assign g t i f => assignGuestToSeat s g t i f
  | .release keys => releaseSeats s keys
  | .resize t q => updateSeatCount s t q
  | .remove t => handleRemoveTable s t

/-- Run a sequence of model operations. -/
def applyOps (s : AppState) (ops : List Op) : AppState := ops.foldl applyOp s

/-!
## Export and guest-list import
-/

def guestToJson (g : Guest) : JsonValue :=
  .obj ([("id", .str g.id), ("name", .str g.name)] ++
    (match g.details with | some d => [("details", .str d)] | none => []))

def tableToJson (t : Table) : JsonValue :=
  .obj [("id", .str t.id),
        ("seatCount", .num (.num (t.seatCount : ℚ))),
        ("position", .obj [("x", .num (.num t.posX)), ("y", .num (.num t.posY))])]

/-- `handleLayoutExport` / the persisted snapshot: the serialized form of
the live state (`JSON.stringify` omits an `undefined` `details`). -/
def exportSnapshot (s : LayoutState) : JsonValue :=
  .obj [("version", .num (.num 1)),
        ("guests", .arr (s.guests.map guestToJson)),
        ("tables", .arr (s.tables.map tableToJson)),
        ("assignments", .obj (s.assignments.map
          (fun kv => (kv.1, match kv.2 with | some g => .str g | none => .null)))),
        ("unassigned", .arr (s.pool.map .str))]

/-- Slug characters admitted by the guest-import fallback id. -/
def isSlugChar (c : Char) : Bool :=
  decide (('a' ≤ c ∧ c ≤ 'z') ∨ ('0' ≤ c ∧ c ≤ '9'))

/-- Collapse every run of non-slug characters to a single hyphen
(`.replace(/[^a-z0-9]+/g, '-')`). -/
def collapseRuns : Bool → List Char → List Char
  | _, [] => []
  | inRun, c :: cs =>
    if isSlugChar c then c :: collapseRuns false cs
    else if inRun then collapseRuns true cs
    else '-' :: collapseRuns true cs

/-- Trim leading and trailing hyphens (`.replace(/^-+|-+$/g, '')`). -/
def trimHyphens (l : List Char) : List Char :=
  ((l.dropWhile (fun c => decide (c = '-'))).reverse.dropWhile
    (fun c => decide (c = '-'))).reverse

/-- `s.toLowerCase()`, modelled for ASCII letters. -/
def jsToLower (s : String) : String := ⟨s.data.map Char.toLower⟩

/-- The name-derived fallback id of the guest-list import. -/
def slugify (s : String) : String :=
  ⟨trimHyphens (collapseRuns false (jsToLower s).data)⟩

/-- The collision-suffix search loop (`while (seenIds.has(...))`), with
explicit fuel; `seen.length + 1` rounds always suffice. -/
def suffixLoop (seen : List String) (base : String) : Nat → Nat → String
  | 0, k => base ++ "-" ++ Nat.repr k
  | fuel + 1, k =>
    let cand := base ++ "-" ++ Nat.repr k
    if cand ∈ seen then suffixLoop seen base fuel (k + 1) else cand

/-- Candidate id for one imported guest record given the ids seen so far. -/
def candidateId (seen : List String) (base : String) : String :=
  if base ∈ seen then suffixLoop seen base (seen.length + 1) 2 else base

/-- The cleaning fold of `handleGuestFileImport` (id derivation, collision
suffixing, record dropping). -/
def importGuestsGo (seen : List String) : List JsonValue → List Guest
  | [] => []
  | item :: rest =>
    match asRecord item with
    | none => importGuestsGo seen rest
    | some r =>
      let rawName :=
        jsTrim (match lookupField r "name" with | some (.str s) => s | _ => "")
      if rawName = "" then importGuestsGo seen rest
      else
        let providedId :=
          jsTrim (match lookupField r "id" with | some (.str s) => s | _ => "")
        let fallbackId := slugify rawName
        let baseId := if providedId ≠ "" then providedId else fallbackId
        if baseId = "" then importGuestsGo seen rest
        else
          let cand := candidateId seen baseId
          ⟨cand, rawName,
            match lookupField r "details" with
            | some (.str s) => some s | _ => none⟩ ::
            importGuestsGo (cand :: seen) rest

/-- The cleaned guest list produced by the guest-list import. -/
def importGuests (items : List JsonValue) : List Guest := importGuestsGo [] items

/-!
## First-occurrence de-duplication lemmas
-/

theorem mem_dedupFirstAux {g : String} {seen l : List String} :
    g ∈ dedupFirstAux seen l ↔ g ∈ l ∧ g ∉ seen := by
  induction l generalizing seen with
  | nil => simp [dedupFirstAux]
  | cons x xs ih =>
    by_cases hx : x ∈ seen
    · simp only [dedupFirstAux, if_pos hx, ih, List.mem_cons]
      constructor
      · rintro ⟨h1, h2⟩; exact ⟨Or.inr h1, h2⟩
      · rintro ⟨h1 | h1, h2⟩
        · subst h1; exact absurd hx h2
        · exact ⟨h1, h2⟩
    · simp only [dedupFirstAux, if_neg hx, List.mem_cons, ih]
      constructor
      · rintro (rfl | ⟨h1, h2⟩)
        · exact ⟨Or.inl rfl, hx⟩
        · exact ⟨Or.inr h1, fun hc => h2 (Or.inr hc)⟩
      · rintro ⟨h1, h2⟩
        by_cases hgx : g = x
        · exact Or.inl hgx
        · rcases h1 with h1 | h1
          · exact absurd h1 hgx
          · right
            refine ⟨h1, fun hc => ?_⟩
            rcases hc with h3 | h3
            · exact hgx h3
            · exact h2 h3

theorem nodup_dedupFirstAux (seen l : List String) :
    (dedupFirstAux seen l).Nodup := by
  induction l generalizing seen with
  | nil => simp [dedupFirstAux]
  | cons x xs ih =>
    by_cases hx : x ∈ seen
    · simpa [dedupFirstAux, if_pos hx] using ih seen
    · simp only [dedupFirstAux, if_neg hx]
      refine List.Nodup.cons ?_ (ih (x :: seen))
      intro hc
      exact (mem_dedupFirstAux.mp hc).2 (List.mem_cons_self x seen)

theorem dedupFirstAux_eq_self {seen l : List String}
    (hn : l.Nodup) (hs : ∀ x ∈ l, x ∉ seen) : dedupFirstAux seen l = l := by
  induction l generalizing seen with
  | nil => rfl
  | cons x xs ih =>
    have hx : x ∉ seen := hs x (List.mem_cons_self x xs)
    simp only [dedupFirstAux, if_neg hx]
    congr 1
    apply ih (List.Nodup.of_cons hn)
    intro y hy hc
    rcases List.mem_cons.mp hc with rfl | hc2
    · exact (List.nodup_cons.mp hn).1 hy
    · exact hs y (List.mem_cons_of_mem _ hy) hc2

theorem dedupFirstAux_eq_nil {seen l : List String}
    (hs : ∀ x ∈ l, x ∈ seen) : dedupFirstAux seen l = [] := by
  induction l with
  | nil => rfl
  | cons x xs ih =>
    have hx : x ∈ seen := hs x (List.mem_cons_self x xs)
    simp only [dedupFirstAux, if_pos hx]
    exact ih (fun y hy => hs y (List.mem_cons_of_mem _ hy))

theorem dedupFirstAux_congr {seen seen' l : List String}
    (h : ∀ x : String, x ∈ seen ↔ x ∈ seen') :
    dedupFirstAux seen l = dedupFirstAux seen' l := by
  induction l generalizing seen seen' with
  | nil => rfl
  | cons x xs ih =>
    by_cases hx : x ∈ seen
    · rw [dedupFirstAux, if_pos hx, dedupFirstAux, if_pos ((h x).mp hx)]
      exact ih h
    · rw [dedupFirstAux, if_neg hx, dedupFirstAux, if_neg (fun hc => hx ((h x).mpr hc))]
      congr 1
      apply ih
      intro y
      simp only [List.mem_cons, h y]

theorem dedupFirstAux_cons_seen (x : String) (seen l : List String) :
    dedupFirstAux (x :: seen) l =
      (dedupFirstAux seen l).filter (fun y => decide (y ≠ x)) := by
  induction l generalizing seen with
  | nil => rfl
  | cons y ys ih =>
    by_cases hyx : y = x
    · subst hyx
      by_cases hy : y ∈ seen
      · rw [dedupFirstAux, if_pos (List.mem_cons_of_mem _ hy), dedupFirstAux, if_pos hy]
        exact ih seen
      · rw [dedupFirstAux, if_pos (List.mem_cons_self y seen), dedupFirstAux, if_neg hy,
          List.filter_cons, if_neg (by simp)]
        have hdup : dedupFirstAux (y :: y :: seen) ys = dedupFirstAux (y :: seen) ys := by
          apply dedupFirstAux_congr
          intro z
          simp only [List.mem_cons]
          tauto
        conv_lhs => rw [← hdup]
        exact ih (y :: seen)
    · by_cases hy : y ∈ seen
      · rw [dedupFirstAux, if_pos (List.mem_cons_of_mem _ hy), dedupFirstAux, if_pos hy]
        exact ih seen
      · have hny : y ∉ x :: seen := by
          intro hc; rcases List.mem_cons.mp hc with h | h
          · exact hyx h
          · exact hy h
        rw [dedupFirstAux, if_neg hny, dedupFirstAux, if_neg hy, List.filter_cons,
          if_pos (by simpa using hyx)]
        congr 1
        have hswap : dedupFirstAux (y :: x :: seen) ys =
            dedupFirstAux (x :: y :: seen) ys := by
          apply dedupFirstAux_congr
          intro z
          simp only [List.mem_cons]
          tauto
        rw [hswap, ih (y :: seen)]

theorem dedupFirstAux_eq_filter (seen l : List String) :
    dedupFirstAux seen l = (dedupFirst l).filter (fun y => decide (y ∉ seen)) := by
  induction seen with
  | nil =>
    rw [dedupFirst]
    rw [List.filter_eq_self.mpr]
    intro a _
    simp
  | cons z zs ih =>
    rw [dedupFirstAux_cons_seen, ih, List.filter_filter]
    apply List.filter_congr
    intro y _
    by_cases hz : y = z <;> by_cases hzs : y ∈ zs <;>
      simp [hz, hzs, List.mem_cons]

theorem dedupFirstAux_filter_comm (seen l : List String) (p : String → Bool) :
    dedupFirstAux seen (l.filter p) = (dedupFirstAux seen l).filter p := by
  induction l generalizing seen with
  | nil => rfl
  | cons x xs ih =>
    rw [List.filter_cons]
    by_cases hp : p x = true
    · rw [if_pos hp]
      by_cases hx : x ∈ seen
      · rw [dedupFirstAux, if_pos hx, dedupFirstAux, if_pos hx, ih seen]
      · rw [dedupFirstAux, if_neg hx, dedupFirstAux, if_neg hx, List.filter_cons,
          if_pos hp, ih (x :: seen)]
    · rw [if_neg hp]
      by_cases hx : x ∈ seen
      · rw [dedupFirstAux, if_pos hx, ih seen]
      · conv_rhs => rw [dedupFirstAux, if_neg hx]
        rw [List.filter_cons, if_neg hp, dedupFirstAux_cons_seen, List.filter_filter,
          ih seen]
        apply List.filter_congr
        intro y _
        cases hyp : p y
        · simp
        · have hyx : y ≠ x := by
            intro hc; subst hc; rw [hyp] at hp; exact hp rfl
          simp [hyx]

/-!
## Reconciliation-fold lemmas
-/

theorem reconcileFold_fst (assigned gds : List String) (seen l : List String) :
    (reconcileFold assigned gds seen l).1 =
      dedupFirstAux seen
        (l.filter (fun g => decide (g ∉ assigned ∧ g ∈ gds))) := by
  induction l generalizing seen with
  | nil => rfl
  | cons g gs ih =>
    rw [List.filter_cons]
    by_cases hc : g ∉ assigned ∧ g ∈ gds
    · rw [if_pos (by simpa using hc)]
      by_cases hseen : g ∈ seen
      · have : ¬(g ∉ assigned ∧ g ∈ gds ∧ g ∉ seen) := by tauto
        rw [reconcileFold, if_neg this, dedupFirstAux, if_pos hseen, ih seen]
      · have : g ∉ assigned ∧ g ∈ gds ∧ g ∉ seen := ⟨hc.1, hc.2, hseen⟩
        rw [reconcileFold, if_pos this, dedupFirstAux, if_neg hseen]
        simp only [List.cons.injEq, true_and]
        exact ih (g :: seen)
    · have : ¬(g ∉ assigned ∧ g ∈ gds ∧ g ∉ seen) := by tauto
      rw [if_neg (by simpa using hc), reconcileFold, if_neg this, ih seen]

theorem reconcileFold_snd_mem (assigned gds : List String) (seen l : List String)
    (g : String) :
    g ∈ (reconcileFold assigned gds seen l).2 ↔
      g ∈ (reconcileFold assigned gds seen l).1 ∨ g ∈ seen := by
  induction l generalizing seen with
  | nil => simp [reconcileFold]
  | cons x xs ih =>
    by_cases hc : x ∉ assigned ∧ x ∈ gds ∧ x ∉ seen
    · rw [reconcileFold, if_pos hc]
      simp only [List.mem_cons]
      rw [ih (x :: seen)]
      simp only [List.mem_cons]
      tauto
    · rw [reconcileFold, if_neg hc]
      exact ih seen

theorem reconcileFold2_eq (assigned : List String) (seen l : List String) :
    reconcileFold2 assigned seen l =
      dedupFirstAux seen (l.filter (fun g => decide (g ∉ assigned))) := by
  induction l generalizing seen with
  | nil => rfl
  | cons g gs ih =>
    rw [List.filter_cons]
    by_cases ha : g ∉ assigned
    · rw [if_pos (by simpa using ha)]
      by_cases hseen : g ∈ seen
      · have : ¬(g ∉ assigned ∧ g ∉ seen) := by tauto
        rw [reconcileFold2, if_neg this, dedupFirstAux, if_pos hseen, ih seen]
      · rw [reconcileFold2, if_pos ⟨ha, hseen⟩, dedupFirstAux, if_neg hseen]
        simp only [List.cons.injEq, true_and]
        exact ih (g :: seen)
    · have : ¬(g ∉ assigned ∧ g ∉ seen) := by tauto
      rw [if_neg (by simpa using ha), reconcileFold2, if_neg this, ih seen]

/-- Membership in a two-pass pool: exactly the known ids not in the
assigned set. -/
theorem mem_normalizePool {gds assignedSet p : List String} {g : String} :
    g ∈ normalizePool gds assignedSet p ↔ g ∈ gds ∧ g ∉ assignedSet := by
  simp only [normalizePool, List.mem_append]
  constructor
  · rintro (h | h)
    · rw [reconcileFold_fst, mem_dedupFirstAux, List.mem_filter] at h
      have hc := of_decide_eq_true h.1.2
      exact ⟨hc.2, hc.1⟩
    · rw [reconcileFold2_eq, mem_dedupFirstAux, List.mem_filter] at h
      exact ⟨h.1.1, of_decide_eq_true h.1.2⟩
  · rintro ⟨hg, hna⟩
    by_cases hseen : g ∈ (reconcileFold assignedSet gds [] p).2
    · left
      rw [reconcileFold_snd_mem] at hseen
      rcases hseen with h | h
      · exact h
      · simp at h
    · right
      rw [reconcileFold2_eq, mem_dedupFirstAux, List.mem_filter]
      exact ⟨⟨hg, decide_eq_true hna⟩, hseen⟩

/-- A two-pass pool has no duplicates. -/
theorem nodup_normalizePool (gds assignedSet p : List String) :
    (normalizePool gds assignedSet p).Nodup := by
  simp only [normalizePool]
  apply List.Nodup.append
  · rw [reconcileFold_fst]
    exact nodup_dedupFirstAux _ _
  · rw [reconcileFold2_eq]
    exact nodup_dedupFirstAux _ _
  · intro g hg1 hg2
    rw [reconcileFold2_eq, mem_dedupFirstAux] at hg2
    apply hg2.2
    rw [reconcileFold_snd_mem]
    exact Or.inl hg1

/-- The two-pass pool is the identity on a consistent prior pool. -/
theorem normalizePool_eq_self {gds assignedSet p : List String}
    (hnodup : p.Nodup)
    (hmem : ∀ g ∈ p, g ∈ gds ∧ g ∉ assignedSet)
    (hcomplete : ∀ g ∈ gds, g ∉ assignedSet → g ∈ p) :
    normalizePool gds assignedSet p = p := by
  simp only [normalizePool]
  have h1 : (reconcileFold assignedSet gds [] p).1 = p := by
    rw [reconcileFold_fst]
    rw [List.filter_eq_self.mpr]
    · exact dedupFirstAux_eq_self hnodup (by simp)
    · intro g hg
      have hG := hmem g hg
      simp only [decide_eq_true_eq]
      tauto
  rw [h1]
  have h2 : reconcileFold2 assignedSet
      ((reconcileFold assignedSet gds [] p).2) gds = [] := by
    rw [reconcileFold2_eq]
    apply dedupFirstAux_eq_nil
    intro x hx
    rw [List.mem_filter] at hx
    rw [reconcileFold_snd_mem, h1]
    left
    exact hcomplete x hx.1 (of_decide_eq_true hx.2)
  rw [h2, List.append_nil]

/-- Membership in the reconciled pool: exactly the known ids not assigned
to any seat (as a known guest). -/
theorem mem_reconcilePool {guests : List Guest} {a : AssignMap}
    {p : List String} {g : String} :
    g ∈ reconcilePool guests a p ↔
      g ∈ gids guests ∧
        g ∉ (assignedVals a).filter (fun x => decide (x ∈ gids guests)) := by
  simp only [reconcilePool]
  exact mem_normalizePool

/-- The reconciled pool has no duplicates. -/
theorem nodup_reconcilePool (guests : List Guest) (a : AssignMap)
    (p : List String) : (reconcilePool guests a p).Nodup := by
  simp only [reconcilePool]
  exact nodup_normalizePool _ _ _

/-- The reconciliation pass is the identity on a consistent pool. -/
theorem reconcilePool_eq_self {guests : List Guest} {a : AssignMap}
    {p : List String}
    (hnodup : p.Nodup)
    (hmem : ∀ g ∈ p, g ∈ gids guests ∧
      g ∉ (assignedVals a).filter (fun x => decide (x ∈ gids guests)))
    (hcomplete : ∀ g ∈ gids guests,
      g ∉ (assignedVals a).filter (fun x => decide (x ∈ gids guests)) → g ∈ p) :
    reconcilePool guests a p = p := by
  simp only [reconcilePool]
  exact normalizePool_eq_self hnodup hmem hcomplete


/-!
## Assignment-map lemmas
-/

theorem amKeys_cons (k : String) (v : Option String) (rest : AssignMap) :
    amKeys ((k, v) :: rest) = k :: amKeys rest := rfl

theorem assignedVals_cons_none (k : String) (rest : AssignMap) :
    assignedVals ((k, none) :: rest) = assignedVals rest := rfl

theorem assignedVals_cons_some (k g : String) (rest : AssignMap) :
    assignedVals ((k, some g) :: rest) = g :: assignedVals rest := rfl

theorem amLookup_amSet (m : AssignMap) (k : String) (v : Option String)
    (q : String) :
    amLookup (amSet m k v) q = if q = k then some v else amLookup m q := by
  induction m with
  | nil =>
    simp only [amSet, amLookup]
    by_cases hq : q = k
    · subst hq
      rw [if_pos rfl]
    · rw [if_neg (Ne.symm hq), if_neg hq]
  | cons kv rest ih =>
    obtain ⟨kh, vh⟩ := kv
    rw [amSet]
    by_cases hk : kh = k
    · subst hk
      rw [if_pos rfl]
      by_cases hq : q = kh
      · subst hq
        rw [amLookup, if_pos rfl, if_pos rfl]
      · rw [amLookup, if_neg (Ne.symm hq), if_neg hq, amLookup,
          if_neg (Ne.symm hq)]
    · rw [if_neg hk]
      by_cases hq : kh = q
      · subst hq
        rw [amLookup, if_pos rfl, amLookup, if_pos rfl,
          if_neg (fun hc : kh = k => hk hc)]
      · rw [amLookup, if_neg hq, amLookup, if_neg hq, ih]

theorem mem_amKeys_iff_lookup {m : AssignMap} {k : String} :
    k ∈ amKeys m ↔ amLookup m k ≠ none := by
  induction m with
  | nil => simp [amKeys, amLookup]
  | cons kv rest ih =>
    obtain ⟨kh, vh⟩ := kv
    rw [amKeys_cons, List.mem_cons]
    by_cases hq : kh = k
    · subst hq
      rw [amLookup, if_pos rfl]
      simp
    · rw [amLookup, if_neg hq, ← ih]
      constructor
      · rintro (h | h)
        · exact absurd h.symm hq
        · exact h
      · exact Or.inr

theorem amLookup_isSome_iff {m : AssignMap} {k : String} :
    (amLookup m k).isSome = true ↔ k ∈ amKeys m := by
  rw [mem_amKeys_iff_lookup, Option.isSome_iff_ne_none]

theorem amKeys_amSet_of_mem {m : AssignMap} {k : String} (v : Option String)
    (h : k ∈ amKeys m) : amKeys (amSet m k v) = amKeys m := by
  induction m with
  | nil => simp [amKeys] at h
  | cons kv rest ih =>
    obtain ⟨kh, vh⟩ := kv
    by_cases hk : kh = k
    · subst hk; rw [amSet, if_pos rfl, amKeys_cons, amKeys_cons]
    · rw [amSet, if_neg hk, amKeys_cons, amKeys_cons]
      congr 1
      apply ih
      rw [amKeys_cons, List.mem_cons] at h
      rcases h with h | h
      · exact absurd h.symm hk
      · exact h

theorem amKeys_amSet_of_not_mem {m : AssignMap} {k : String} (v : Option String)
    (h : k ∉ amKeys m) : amKeys (amSet m k v) = amKeys m ++ [k] := by
  induction m with
  | nil => rfl
  | cons kv rest ih =>
    obtain ⟨kh, vh⟩ := kv
    rw [amKeys_cons, List.mem_cons] at h
    push_neg at h
    rw [amSet, if_neg (Ne.symm h.1), amKeys_cons, amKeys_cons, List.cons_append]
    congr 1
    exact ih h.2

theorem nodup_amKeys_amSet {m : AssignMap} {k : String} (v : Option String)
    (h : (amKeys m).Nodup) : (amKeys (amSet m k v)).Nodup := by
  by_cases hk : k ∈ amKeys m
  · rw [amKeys_amSet_of_mem v hk]; exact h
  · rw [amKeys_amSet_of_not_mem v hk]
    simpa [List.nodup_append] using ⟨h, hk⟩

theorem mem_of_amLookup_eq {m : AssignMap} {k : String} {v : Option String}
    (h : amLookup m k = some v) : (k, v) ∈ m := by
  induction m with
  | nil => simp [amLookup] at h
  | cons kv rest ih =>
    obtain ⟨kh, vh⟩ := kv
    by_cases hq : kh = k
    · subst hq
      rw [amLookup, if_pos rfl] at h
      injection h with h
      subst h
      exact List.mem_cons_self _ _
    · rw [amLookup, if_neg hq] at h
      exact List.mem_cons_of_mem _ (ih h)

theorem amLookup_of_mem {m : AssignMap} {k : String} {v : Option String}
    (hnd : (amKeys m).Nodup) (h : (k, v) ∈ m) : amLookup m k = some v := by
  induction m with
  | nil => simp at h
  | cons kv rest ih =>
    obtain ⟨kh, vh⟩ := kv
    rw [amKeys_cons, List.nodup_cons] at hnd
    rcases List.mem_cons.mp h with h1 | h1
    · injection h1 with h1 h2
      subst h1; subst h2
      rw [amLookup, if_pos rfl]
    · have hk : kh ≠ k := by
        intro hc; subst hc
        exact hnd.1 (by
          simp only [amKeys, List.mem_map]
          exact ⟨(kh, v), h1, rfl⟩)
      rw [amLookup, if_neg hk]
      exact ih hnd.2 h1

theorem mem_assignedVals_of_lookup {m : AssignMap} {k g : String}
    (h : amLookup m k = some (some g)) : g ∈ assignedVals m := by
  have := mem_of_amLookup_eq h
  simp only [assignedVals, List.mem_filterMap]
  exact ⟨(k, some g), this, rfl⟩

theorem mem_assignedVals_iff_lookup {m : AssignMap} {g : String}
    (hnd : (amKeys m).Nodup) :
    g ∈ assignedVals m ↔ ∃ k, amLookup m k = some (some g) := by
  constructor
  · intro h
    simp only [assignedVals, List.mem_filterMap] at h
    obtain ⟨⟨k, v⟩, hmem, hv⟩ := h
    cases v with
    | none => simp at hv
    | some g2 =>
      simp only [Option.some.injEq] at hv
      subst hv
      exact ⟨k, amLookup_of_mem hnd hmem⟩
  · rintro ⟨k, hk⟩
    exact mem_assignedVals_of_lookup hk

theorem mem_assignedVals_amSet {m : AssignMap} {k : String} {v : Option String}
    {y : String} (h : y ∈ assignedVals (amSet m k v)) :
    y ∈ assignedVals m ∨ v = some y := by
  induction m with
  | nil =>
    rw [amSet] at h
    cases v with
    | none => simp [assignedVals] at h
    | some w =>
      rw [assignedVals_cons_some] at h
      rcases List.mem_cons.mp h with h1 | h1
      · exact Or.inr (by rw [h1])
      · simp [assignedVals] at h1
  | cons kv rest ih =>
    obtain ⟨kh, vh⟩ := kv
    by_cases hk : kh = k
    · subst hk
      rw [amSet, if_pos rfl] at h
      cases v with
      | none =>
        rw [assignedVals_cons_none] at h
        left
        cases vh with
        | none => rw [assignedVals_cons_none]; exact h
        | some w => rw [assignedVals_cons_some]; exact List.mem_cons_of_mem _ h
      | some w =>
        rw [assignedVals_cons_some] at h
        rcases List.mem_cons.mp h with h1 | h1
        · exact Or.inr (by rw [h1])
        · left
          cases vh with
          | none => rw [assignedVals_cons_none]; exact h1
          | some u => rw [assignedVals_cons_some]; exact List.mem_cons_of_mem _ h1
    · rw [amSet, if_neg hk] at h
      cases vh with
      | none =>
        rw [assignedVals_cons_none] at h ⊢
        exact ih h
      | some u =>
        rw [assignedVals_cons_some] at h ⊢
        rcases List.mem_cons.mp h with h1 | h1
        · exact Or.inl (h1 ▸ List.mem_cons_self _ _)
        · rcases ih h1 with h2 | h2
          · exact Or.inl (List.mem_cons_of_mem _ h2)
          · exact Or.inr h2

theorem assignedVals_amSet_none_sublist (m : AssignMap) (k : String) :
    List.Sublist (assignedVals (amSet m k none)) (assignedVals m) := by
  induction m with
  | nil =>
    rw [amSet]
    simp [assignedVals]
  | cons kv rest ih =>
    obtain ⟨kh, vh⟩ := kv
    by_cases hk : kh = k
    · subst hk
      rw [amSet, if_pos rfl, assignedVals_cons_none]
      cases vh with
      | none => rw [assignedVals_cons_none]
      | some w => rw [assignedVals_cons_some]; exact List.sublist_cons_self _ _
    · rw [amSet, if_neg hk]
      cases vh with
      | none => rw [assignedVals_cons_none, assignedVals_cons_none]; exact ih
      | some w =>
        rw [assignedVals_cons_some, assignedVals_cons_some]
        exact List.Sublist.cons₂ _ ih

theorem assignedVals_filter_sublist (m : AssignMap)
    (p : String × Option String → Bool) :
    List.Sublist (assignedVals (m.filter p)) (assignedVals m) :=
  List.Sublist.filterMap _ (List.filter_sublist m)

theorem nodup_assignedVals_amSet_some {m : AssignMap} {k x : String}
    (hn : (assignedVals m).Nodup) (hx : x ∉ assignedVals m) :
    (assignedVals (amSet m k (some x))).Nodup := by
  induction m with
  | nil =>
    rw [amSet, assignedVals_cons_some]
    simp [assignedVals]
  | cons kv rest ih =>
    obtain ⟨kh, vh⟩ := kv
    by_cases hk : kh = k
    · subst hk
      rw [amSet, if_pos rfl, assignedVals_cons_some]
      cases vh with
      | none =>
        rw [assignedVals_cons_none] at hn hx
        exact List.Nodup.cons hx hn
      | some w =>
        rw [assignedVals_cons_some] at hn hx
        rw [List.nodup_cons] at hn
        exact List.Nodup.cons (fun hc => hx (List.mem_cons_of_mem _ hc)) hn.2
    · rw [amSet, if_neg hk]
      cases vh with
      | none =>
        rw [assignedVals_cons_none] at hn hx ⊢
        exact ih hn hx
      | some w =>
        rw [assignedVals_cons_some] at hn hx ⊢
        rw [List.nodup_cons] at hn
        refine List.Nodup.cons ?_
          (ih hn.2 (fun hc => hx (List.mem_cons_of_mem _ hc)))
        intro hc
        rcases mem_assignedVals_amSet hc with h1 | h1
        · exact hn.1 h1
        · injection h1 with h1
          exact hx (h1 ▸ List.mem_cons_self _ _)

theorem amSet_amSet_same (m : AssignMap) (k : String) (v w : Option String) :
    amSet (amSet m k v) k w = amSet m k w := by
  induction m with
  | nil => simp [amSet]
  | cons kv rest ih =>
    obtain ⟨kh, vh⟩ := kv
    by_cases hk : kh = k
    · subst hk; simp [amSet]
    · rw [amSet, if_neg hk, amSet, if_neg hk, amSet, if_neg hk, ih]

theorem amSet_comm {m : AssignMap} {k0 k1 : String} (v0 v1 : Option String)
    (hmem : k0 ∈ amKeys m) (hne : k1 ≠ k0) :
    amSet (amSet m k1 v1) k0 v0 = amSet (amSet m k0 v0) k1 v1 := by
  induction m with
  | nil => simp [amKeys] at hmem
  | cons kv rest ih =>
    obtain ⟨kh, vh⟩ := kv
    by_cases h1 : kh = k1
    · subst h1
      have h0 : kh ≠ k0 := fun hc => hne hc
      rw [amSet, if_pos rfl, amSet, if_neg h0, amSet, if_neg h0, amSet, if_pos rfl]
    · by_cases h0 : kh = k0
      · subst h0
        rw [amSet, if_neg h1, amSet, if_pos rfl, amSet, if_pos rfl, amSet,
          if_neg h1]
      · have hmem2 : k0 ∈ amKeys rest := by
          rw [amKeys_cons, List.mem_cons] at hmem
          rcases hmem with hc | hc
          · exact absurd hc.symm h0
          · exact hc
        rw [amSet, if_neg h1, amSet, if_neg h0, amSet, if_neg h0, amSet,
          if_neg h1, ih hmem2]

theorem not_mem_assignedVals_amSet_none {m : AssignMap} {k g : String}
    (hkeys : (amKeys m).Nodup) (hlk : amLookup m k = some (some g))
    (hnodup : (assignedVals m).Nodup) :
    g ∉ assignedVals (amSet m k none) := by
  induction m with
  | nil => simp [amLookup] at hlk
  | cons kv rest ih =>
    obtain ⟨kh, vh⟩ := kv
    rw [amKeys_cons, List.nodup_cons] at hkeys
    by_cases hk : kh = k
    · subst hk
      rw [amLookup, if_pos rfl] at hlk
      injection hlk with hlk
      subst hlk
      rw [amSet, if_pos rfl, assignedVals_cons_none]
      rw [assignedVals_cons_some, List.nodup_cons] at hnodup
      exact hnodup.1
    · rw [amLookup, if_neg hk] at hlk
      rw [amSet, if_neg hk]
      cases vh with
      | none =>
        rw [assignedVals_cons_none] at hnodup ⊢
        exact ih hkeys.2 hlk hnodup
      | some w =>
        rw [assignedVals_cons_some] at hnodup ⊢
        rw [List.nodup_cons] at hnodup
        intro hc
        rcases List.mem_cons.mp hc with h1 | h1
        · subst h1
          exact hnodup.1 (mem_assignedVals_of_lookup hlk)
        · exact ih hkeys.2 hlk hnodup.2 h1

/-!
## `buildEmptyAssignments` and `populateAssignments` lemmas
-/

theorem amLookup_foldl_setNone (ks : List String) (m : AssignMap) (k : String) :
    amLookup (ks.foldl (fun m2 kk => amSet m2 kk none) m) k =
      if k ∈ ks then some none else amLookup m k := by
  induction ks generalizing m with
  | nil => simp
  | cons kk rest ih =>
    rw [List.foldl_cons, ih]
    by_cases hk : k ∈ rest
    · rw [if_pos hk, if_pos (List.mem_cons_of_mem _ hk)]
    · rw [if_neg hk, amLookup_amSet]
      by_cases he : k = kk
      · subst he
        rw [if_pos rfl, if_pos (List.mem_cons_self _ _)]
      · rw [if_neg he, if_neg (fun hc => by
          rcases List.mem_cons.mp hc with h | h
          · exact he h
          · exact hk h)]

/-- Seat-key lookup after one table of `buildEmptyAssignments`. -/
theorem amLookup_rangeFold (tid : String) (c : Nat) (m : AssignMap) (k : String) :
    amLookup ((List.range c).foldl
        (fun m2 i => amSet m2 (seatKey tid i) none) m) k =
      if ∃ i, i < c ∧ k = seatKey tid i then some none else amLookup m k := by
  have hmap : (List.range c).foldl (fun m2 i => amSet m2 (seatKey tid i) none) m =
      ((List.range c).map (seatKey tid)).foldl (fun m2 kk => amSet m2 kk none) m := by
    rw [List.foldl_map]
  rw [hmap, amLookup_foldl_setNone]
  congr 1
  simp only [List.mem_map, List.mem_range, eq_iff_iff]
  constructor
  · rintro ⟨i, hi, hk⟩; exact ⟨i, hi, hk.symm⟩
  · rintro ⟨i, hi, hk⟩; exact ⟨i, hi, hk.symm⟩

theorem amLookup_buildEmpty_fold (tables : List Table) (m : AssignMap) (k : String) :
    amLookup (tables.foldl (fun ma t => (List.range t.seatCount).foldl
        (fun m2 i => amSet m2 (seatKey t.id i) none) ma) m) k =
      if ∃ t ∈ tables, ∃ i, i < t.seatCount ∧ k = seatKey t.id i then some none
      else amLookup m k := by
  induction tables generalizing m with
  | nil => simp
  | cons t rest ih =>
    rw [List.foldl_cons, ih, amLookup_rangeFold]
    by_cases h1 : ∃ u ∈ rest, ∃ i, i < u.seatCount ∧ k = seatKey u.id i
    · rw [if_pos h1, if_pos (by
        obtain ⟨u, hu, hi⟩ := h1
        exact ⟨u, List.mem_cons_of_mem _ hu, hi⟩)]
    · rw [if_neg h1]
      by_cases h2 : ∃ i, i < t.seatCount ∧ k = seatKey t.id i
      · rw [if_pos h2, if_pos ⟨t, List.mem_cons_self _ _, h2⟩]
      · rw [if_neg h2, if_neg (by
          rintro ⟨u, hu, hi⟩
          rcases List.mem_cons.mp hu with h3 | h3
          · exact h2 (h3 ▸ hi)
          · exact h1 ⟨u, h3, hi⟩)]

theorem amLookup_buildEmpty (tables : List Table) (k : String) :
    amLookup (buildEmptyAssignments tables) k =
      if ∃ t ∈ tables, ∃ i, i < t.seatCount ∧ k = seatKey t.id i then some none
      else none := by
  have h := amLookup_buildEmpty_fold tables [] k
  rw [buildEmptyAssignments, h]
  rfl

/-- One entry-processing step of `populateAssignments`. -/
def populateStep (gds : List String) (m : AssignMap)
    (kv : String × JsonValue) : AssignMap :=
  if (amLookup m kv.1).isSome then
    match kv.2 with
    | .str v => if v ∈ gds then amSet m kv.1 (some v) else amSet m kv.1 none
    | _ => amSet m kv.1 none
  else m

theorem populateAssignments_eq_foldl (gds : List String) (base : AssignMap)
    (entries : List (String × JsonValue)) :
    populateAssignments gds base entries = entries.foldl (populateStep gds) base := by
  rw [populateAssignments]
  congr 1

theorem populateStep_cases (gds : List String) (m : AssignMap)
    (kv : String × JsonValue) :
    populateStep gds m kv = m ∨
      ∃ w : Option String, populateStep gds m kv = amSet m kv.1 w ∧
        (∀ g : String, w = some g → g ∈ gds) ∧ kv.1 ∈ amKeys m := by
  rw [populateStep]
  by_cases hp : (amLookup m kv.1).isSome = true
  · rw [if_pos hp]
    right
    have hmem := amLookup_isSome_iff.mp hp
    cases hv : kv.2 with
    | str v =>
      by_cases hg : v ∈ gds
      · exact ⟨some v, by simp [hg], fun g hgw => by
          injection hgw with h; exact h ▸ hg, hmem⟩
      · exact ⟨none, by simp [hg], fun g hgw => by simp at hgw, hmem⟩
    | null => exact ⟨none, rfl, fun g hgw => by simp at hgw, hmem⟩
    | bool b => exact ⟨none, rfl, fun g hgw => by simp at hgw, hmem⟩
    | num n => exact ⟨none, rfl, fun g hgw => by simp at hgw, hmem⟩
    | arr xs => exact ⟨none, rfl, fun g hgw => by simp at hgw, hmem⟩
    | obj fs => exact ⟨none, rfl, fun g hgw => by simp at hgw, hmem⟩
  · rw [if_neg hp]
    exact Or.inl rfl

theorem populate_keys (gds : List String) (base : AssignMap)
    (entries : List (String × JsonValue)) :
    amKeys (populateAssignments gds base entries) = amKeys base := by
  rw [populateAssignments_eq_foldl]
  induction entries generalizing base with
  | nil => rfl
  | cons kv rest ih =>
    rw [List.foldl_cons, ih]
    rcases populateStep_cases gds base kv with h | ⟨w, hw, -, hmem⟩
    · rw [h]
    · rw [hw, amKeys_amSet_of_mem _ hmem]

theorem populate_some_sound (gds : List String) (base : AssignMap)
    (entries : List (String × JsonValue)) (k g : String)
    (h : amLookup (populateAssignments gds base entries) k = some (some g)) :
    amLookup base k = some (some g) ∨ g ∈ gds := by
  rw [populateAssignments_eq_foldl] at h
  induction entries generalizing base with
  | nil => exact Or.inl h
  | cons kv rest ih =>
    rw [List.foldl_cons] at h
    rcases populateStep_cases gds base kv with hstep | ⟨w, hw, hwg, -⟩
    · rw [hstep] at h
      exact ih base h
    · rw [hw] at h
      rcases ih (amSet base kv.1 w) h with h1 | h1
      · rw [amLookup_amSet] at h1
        by_cases he : k = kv.1
        · rw [if_pos he] at h1
          injection h1 with h1
          exact Or.inr (hwg g h1)
        · rw [if_neg he] at h1
          exact Or.inl h1
      · exact Or.inr h1

/-- The pool that the spec prescribes for `reconcilePool`: the prior-pool
guest ids that are still known and still unassigned, in their prior
relative order without duplicates, followed by the remaining known
unassigned guest ids in guest-list order. -/
def reconcileSpecPool (guests : List Guest) (a : AssignMap)
    (prevPool : List String) : List String :=
  let gds := gids guests
  let assigned := (assignedVals a).filter (fun g => decide (g ∈ gds))
  let keep := dedupFirst (prevPool.filter (fun g => decide (g ∈ gds ∧ g ∉ assigned)))
  keep ++ (dedupFirst gds).filter (fun g => decide (g ∉ assigned ∧ g ∉ keep))

/-- **C10** — For every guest list, assignment map and prior pool, the
reconciliation pass produces exactly: the prior-pool guest ids still known
and still unassigned, in their prior relative order, followed by the
remaining known unassigned guest ids in guest-list order, with no
duplicates; and it returns the prior pool itself (as a value) whenever the
prior pool already equals that sequence. -/
theorem c10_reconcilePool_spec (guests : List Guest) (a : AssignMap)
    (p : List String) :
    reconcilePool guests a p = reconcileSpecPool guests a p ∧
    (reconcilePool guests a p).Nodup ∧
    (reconcileSpecPool guests a p = p → reconcilePool guests a p = p) := by
  have hmain : reconcilePool guests a p = reconcileSpecPool guests a p := by
    simp only [reconcilePool, normalizePool, reconcileSpecPool]
    have hkeep : (reconcileFold ((assignedVals a).filter
        (fun g => decide (g ∈ gids guests))) (gids guests) [] p).1 =
        dedupFirst (p.filter (fun g => decide (g ∈ gids guests ∧
          g ∉ (assignedVals a).filter (fun x => decide (x ∈ gids guests))))) := by
      rw [reconcileFold_fst, dedupFirst]
      congr 1
      apply List.filter_congr
      intro g _
      by_cases h1 : g ∈ gids guests <;>
        by_cases h2 : g ∈ (assignedVals a).filter
          (fun x => decide (x ∈ gids guests)) <;>
        simp [h1, h2]
    rw [hkeep]
    congr 1
    rw [reconcileFold2_eq, dedupFirstAux_eq_filter, dedupFirst,
      dedupFirstAux_filter_comm, List.filter_filter]
    apply List.filter_congr
    intro g _
    have hseen : g ∈ (reconcileFold ((assignedVals a).filter
        (fun x => decide (x ∈ gids guests))) (gids guests) [] p).2 ↔
        g ∈ dedupFirst (p.filter (fun x => decide (x ∈ gids guests ∧
          x ∉ (assignedVals a).filter (fun y => decide (y ∈ gids guests))))) := by
      rw [reconcileFold_snd_mem, hkeep]
      simp
    by_cases h1 : g ∈ (assignedVals a).filter (fun x => decide (x ∈ gids guests)) <;>
      by_cases h2 : g ∈ dedupFirst (p.filter (fun x => decide (x ∈ gids guests ∧
        x ∉ (assignedVals a).filter (fun y => decide (y ∈ gids guests))))) <;>
      simp [h1, h2, hseen]
  refine ⟨hmain, nodup_reconcilePool guests a p, fun h => ?_⟩
  rw [hmain, h]


/-!
## Claim C4 — outcome characterization of the normalizer
-/

/-- The raw `tables` field, when the payload is a record holding a sequence. -/
def rawTablesOf (p : JsonValue) : Option (List JsonValue) :=
  match p with
  | .obj fs =>
    match lookupField fs "tables" with
    | some (.arr ts) => some ts
    | _ => none
  | _ => none

/-- The raw `guests` field, when the payload is a record holding a sequence. -/
def rawGuestsOf (p : JsonValue) : Option (List JsonValue) :=
  match p with
  | .obj fs =>
    match lookupField fs "guests" with
    | some (.arr gs) => some gs
    | _ => none
  | _ => none

/-- The raw `assignments` field of a record payload. -/
def assignValOf (p : JsonValue) : Option JsonValue :=
  match p with
  | .obj fs => lookupField fs "assignments"
  | _ => none

/-- The structural guard of the normalizer: record payload, `tables` and
`guests` sequences, and `typeof assignments === 'object'`. -/
def structGuardOk (p : JsonValue) : Bool :=
  (rawTablesOf p).isSome && ((rawGuestsOf p).isSome &&
    (match assignValOf p with
     | some v => typeofIsObject v
     | none => false))

/-- The cleaned guest list of a payload. -/
def cleanedGuestsOf (p : JsonValue) : List Guest :=
  ((rawGuestsOf p).getD []).filterMap cleanGuest

/-- The cleaned table list of a payload. -/
def cleanedTablesOf (p : JsonValue) : List RawCleanTable :=
  ((rawTablesOf p).getD []).filterMap cleanTable

/-- Some kept table has sanitized seat count `Infinity`. -/
def hasInfSeatTable (p : JsonValue) : Bool :=
  (cleanedTablesOf p).any (fun t => t.seatCount == JsNum.inf)

/-- Whether an optional payload field is present and `null`. -/
def isNullVal : Option JsonValue → Bool
  | some .null => true
  | _ => false

theorem entriesOf_eq_none_iff {v : JsonValue} (h : typeofIsObject v = true) :
    entriesOf v = none ↔ v = .null := by
  cases v <;> simp_all [entriesOf, typeofIsObject]

theorem normalizeBody_outcomes (fields : List (String × JsonValue))
    (rawT rawG : List JsonValue) (aVal : JsonValue) :
    (normalizeBody fields rawT rawG aVal = .invalid ↔
      rawG.filterMap cleanGuest = []) ∧
    (normalizeBody fields rawT rawG aVal = .diverge ↔
      rawG.filterMap cleanGuest ≠ [] ∧
      (rawT.filterMap cleanTable).any (fun t => t.seatCount == JsNum.inf) = true) ∧
    (normalizeBody fields rawT rawG aVal = .error ↔
      rawG.filterMap cleanGuest ≠ [] ∧
      (rawT.filterMap cleanTable).any (fun t => t.seatCount == JsNum.inf) = false ∧
      entriesOf aVal = none) ∧
    (rawG.filterMap cleanGuest ≠ [] →
      (rawT.filterMap cleanTable).any (fun t => t.seatCount == JsNum.inf) = false →
      entriesOf aVal ≠ none →
      ∃ out, normalizeBody fields rawT rawG aVal = .ok out) := by
  by_cases hg : rawG.filterMap cleanGuest = []
  · simp [normalizeBody, hg]
  · by_cases hinf : (rawT.filterMap cleanTable).any
        (fun t => t.seatCount == JsNum.inf) = true
    · simp [normalizeBody, hg, hinf]
    · cases hent : entriesOf aVal with
      | none => simp [normalizeBody, hg, hinf, hent]
      | some entries => simp [normalizeBody, hg, hinf, hent]

/-- **C4 (amended)** — The normalizer rejects (returns `null`, without
raising) exactly when the payload is not a record, or its `tables` or
`guests` field is not a sequence, or its `assignments` field fails
`typeof === 'object'` (a sequence or `null` both pass it), or the cleaned
guest list is empty.  When the guards pass and the cleaned guest list is
non-empty: if some kept table has sanitized seat count `Infinity` the
seat-key loop never terminates; otherwise if `assignments` is `null` a
`TypeError` is thrown; in every remaining case a normalized state is
returned. -/
theorem c4_normalize_outcome_characterization (p : JsonValue) :
    (normalizeLayoutPayload p = .invalid ↔
      structGuardOk p = false ∨ cleanedGuestsOf p = []) ∧
    (normalizeLayoutPayload p = .diverge ↔
      structGuardOk p = true ∧ cleanedGuestsOf p ≠ [] ∧
      hasInfSeatTable p = true) ∧
    (normalizeLayoutPayload p = .error ↔
      structGuardOk p = true ∧ cleanedGuestsOf p ≠ [] ∧
      hasInfSeatTable p = false ∧ isNullVal (assignValOf p) = true) ∧
    (structGuardOk p = true → cleanedGuestsOf p ≠ [] →
      hasInfSeatTable p = false → isNullVal (assignValOf p) = false →
      ∃ out, normalizeLayoutPayload p = .ok out) := by
  cases p with
  | null => simp [normalizeLayoutPayload, structGuardOk, rawTablesOf]
  | bool b => simp [normalizeLayoutPayload, structGuardOk, rawTablesOf]
  | num n => simp [normalizeLayoutPayload, structGuardOk, rawTablesOf]
  | str st => simp [normalizeLayoutPayload, structGuardOk, rawTablesOf]
  | arr xs => simp [normalizeLayoutPayload, structGuardOk, rawTablesOf]
  | obj fs =>
    cases ht : lookupField fs "tables" with
    | none =>
      simp [normalizeLayoutPayload, structGuardOk, rawTablesOf, ht]
    | some vt =>
      cases vt with
      | arr rawT =>
        cases hg : lookupField fs "guests" with
        | none =>
          simp [normalizeLayoutPayload, structGuardOk, rawTablesOf,
            rawGuestsOf, ht, hg]
        | some vg =>
          cases vg with
          | arr rawG =>
            cases ha : lookupField fs "assignments" with
            | none =>
              simp [normalizeLayoutPayload, structGuardOk, rawTablesOf,
                rawGuestsOf, assignValOf, ht, hg, ha]
            | some aVal =>
              by_cases hobj : typeofIsObject aVal = true
              · have hb := normalizeBody_outcomes fs rawT rawG aVal
                have hrun : normalizeLayoutPayload (.obj fs) =
                    normalizeBody fs rawT rawG aVal := by
                  simp [normalizeLayoutPayload, ht, hg, ha, hobj]
                have hsg : structGuardOk (.obj fs) = true := by
                  simp [structGuardOk, rawTablesOf, rawGuestsOf, assignValOf,
                    ht, hg, ha, hobj]
                have hcg : cleanedGuestsOf (.obj fs) =
                    rawG.filterMap cleanGuest := by
                  simp [cleanedGuestsOf, rawGuestsOf, hg]
                have hct : hasInfSeatTable (.obj fs) =
                    (rawT.filterMap cleanTable).any
                      (fun t => t.seatCount == JsNum.inf) := by
                  simp [hasInfSeatTable, cleanedTablesOf, rawTablesOf, ht]
                have hav : isNullVal (assignValOf (.obj fs)) =
                    isNullVal (some aVal) := by
                  simp [assignValOf, ha]
                have havn : isNullVal (some aVal) = true ↔ aVal = .null := by
                  cases aVal <;> simp [isNullVal]
                obtain ⟨hb1, hb2, hb3, hb4⟩ := hb
                refine ⟨?_, ?_, ?_, ?_⟩
                · rw [hrun, hb1, hsg, hcg]
                  simp
                · rw [hrun, hb2, hsg, hcg, hct]
                  simp
                · rw [hrun, hb3, hsg, hcg, hct, hav]
                  simp only [true_and]
                  constructor
                  · rintro ⟨h1, h2, h3⟩
                    exact ⟨h1, h2, havn.mpr ((entriesOf_eq_none_iff hobj).mp h3)⟩
                  · rintro ⟨h1, h2, h3⟩
                    exact ⟨h1, h2,
                      (entriesOf_eq_none_iff hobj).mpr (havn.mp h3)⟩
                · intro h1 h2 h3 h4
                  rw [hrun]
                  rw [hcg] at h2
                  rw [hct] at h3
                  apply hb4 h2 h3
                  intro hc
                  rw [hav] at h4
                  rw [havn.mpr ((entriesOf_eq_none_iff hobj).mp hc)] at h4
                  simp [isNullVal] at h4
              · simp [normalizeLayoutPayload, structGuardOk, rawTablesOf,
                  rawGuestsOf, assignValOf, ht, hg, ha, hobj]
          | null =>
            simp [normalizeLayoutPayload, structGuardOk, rawTablesOf,
              rawGuestsOf, ht, hg]
          | bool b =>
            simp [normalizeLayoutPayload, structGuardOk, rawTablesOf,
              rawGuestsOf, ht, hg]
          | num n =>
            simp [normalizeLayoutPayload, structGuardOk, rawTablesOf,
              rawGuestsOf, ht, hg]
          | str st =>
            simp [normalizeLayoutPayload, structGuardOk, rawTablesOf,
              rawGuestsOf, ht, hg]
          | obj fs2 =>
            simp [normalizeLayoutPayload, structGuardOk, rawTablesOf,
              rawGuestsOf, ht, hg]
      | null =>
        simp [normalizeLayoutPayload, structGuardOk, rawTablesOf, ht]
      | bool b =>
        simp [normalizeLayoutPayload, structGuardOk, rawTablesOf, ht]
      | num n =>
        simp [normalizeLayoutPayload, structGuardOk, rawTablesOf, ht]
      | str st =>
        simp [normalizeLayoutPayload, structGuardOk, rawTablesOf, ht]
      | obj fs2 =>
        simp [normalizeLayoutPayload, structGuardOk, rawTablesOf, ht]

/-- **C4 witness** — on a well-formed payload the last clause of the
characterization produces a normalized state. -/
theorem c4_witness :
    (structGuardOk (JsonValue.obj
        [("tables", .arr []),
         ("guests", .arr [.obj [("id", .str "g"), ("name", .str "G")]]),
         ("assignments", .obj [])]) = true ∧
      cleanedGuestsOf (JsonValue.obj
        [("tables", .arr []),
         ("guests", .arr [.obj [("id", .str "g"), ("name", .str "G")]]),
         ("assignments", .obj [])]) ≠ []) ∧
    (∃ out, normalizeLayoutPayload (JsonValue.obj
        [("tables", .arr []),
         ("guests", .arr [.obj [("id", .str "g"), ("name", .str "G")]]),
         ("assignments", .obj [])]) = .ok out) := by
  refine ⟨⟨by decide, by decide⟩, ?_⟩
  exact (c4_normalize_outcome_characterization _).2.2.2
    (by decide) (by decide) (by decide) (by decide)

/-- **C4 counterexample** — the claim says the normalizer never raises an
exception, but on a payload whose `assignments` field is `null` (which is
not a record, so the claim prescribes a rejection) the structural guard
passes (`typeof null === 'object'`) and `Object.entries(null)` throws a
`TypeError`. -/
theorem c4_counterexample :
    normalizeLayoutPayload (JsonValue.obj
      [("tables", .arr []),
       ("guests", .arr [.obj [("id", .str "g"), ("name", .str "G")]]),
       ("assignments", .null)]) = NormResult.error := by decide

/-!
## Claim C9 — table cleaning keeps an `Infinity` seat count (code bug)
-/

/-- **C9 (code bug evidence)** — a table whose `seatCount` is the numeric
string `"Infinity"` passes the cleaning step (only `NaN` is rejected) with
sanitized seat count `Infinity`, and the whole import then fails to
terminate: the seat-key loop `for (i = 0; i < table.seatCount; i++)` never
ends.  The claim (and the spec) prescribe dropping such a table. -/
theorem c9_infinite_seatCount_kept :
    cleanTable (JsonValue.obj
      [("id", .str "t"), ("seatCount", .str "Infinity")]) =
      some ⟨"t", JsNum.inf, 0, 0⟩ ∧
    normalizeLayoutPayload (JsonValue.obj
      [("tables", .arr [.obj [("id", .str "t"), ("seatCount", .str "Infinity")]]),
       ("guests", .arr [.obj [("id", .str "g"), ("name", .str "G")]]),
       ("assignments", .obj [])]) = NormResult.diverge := by
  constructor <;> decide


/-!
## Claim C5 — integrity of every accepted normalized state
-/

/-- Inversion of a successful normalization: the shape of the accepted
payload and of the state built from it. -/
theorem normalize_ok_shape {p : JsonValue} {out : LayoutState}
    (h : normalizeLayoutPayload p = .ok out) :
    ∃ fields rawT rawG aVal entries,
      p = .obj fields ∧
      lookupField fields "tables" = some (.arr rawT) ∧
      lookupField fields "guests" = some (.arr rawG) ∧
      lookupField fields "assignments" = some aVal ∧
      entriesOf aVal = some entries ∧
      out.guests = rawG.filterMap cleanGuest ∧
      out.tables = (rawT.filterMap cleanTable).map toTable ∧
      out.assignments = populateAssignments (gids out.guests)
        (buildEmptyAssignments out.tables) entries ∧
      out.pool = normalizePool (gids out.guests)
        ((assignedVals out.assignments).filter
          (fun g => decide (g ∈ gids out.guests)))
        (poolSnapshotOf fields) := by
  cases p with
  | null => simp [normalizeLayoutPayload] at h
  | bool b => simp [normalizeLayoutPayload] at h
  | num n => simp [normalizeLayoutPayload] at h
  | str st => simp [normalizeLayoutPayload] at h
  | arr xs => simp [normalizeLayoutPayload] at h
  | obj fs =>
    cases ht : lookupField fs "tables" with
    | none => simp [normalizeLayoutPayload, ht] at h
    | some vt =>
      cases vt with
      | arr rawT =>
        cases hg : lookupField fs "guests" with
        | none => simp [normalizeLayoutPayload, ht, hg] at h
        | some vg =>
          cases vg with
          | arr rawG =>
            cases ha : lookupField fs "assignments" with
            | none => simp [normalizeLayoutPayload, ht, hg, ha] at h
            | some aVal =>
              by_cases hobj : typeofIsObject aVal = true
              · rw [normalizeLayoutPayload] at h
                simp only [ht, hg, ha, if_pos hobj] at h
                rw [normalizeBody] at h
                by_cases hge : rawG.filterMap cleanGuest = []
                · simp [hge] at h
                · simp only [if_neg hge] at h
                  by_cases hinf : (rawT.filterMap cleanTable).any
                      (fun t => t.seatCount == JsNum.inf) = true
                  · simp [hinf] at h
                  · simp only [hinf, Bool.false_eq_true, if_neg,
                      if_false] at h
                    cases hent : entriesOf aVal with
                    | none => simp [hent] at h
                    | some entries =>
                      simp only [hent] at h
                      injection h with h
                      refine ⟨fs, rawT, rawG, aVal, entries, rfl, ht, hg, ha,
                        hent, ?_, ?_, ?_, ?_⟩ <;> rw [← h]
              · simp [normalizeLayoutPayload, ht, hg, ha, hobj] at h
          | null => simp [normalizeLayoutPayload, ht, hg] at h
          | bool b => simp [normalizeLayoutPayload, ht, hg] at h
          | num n => simp [normalizeLayoutPayload, ht, hg] at h
          | str st => simp [normalizeLayoutPayload, ht, hg] at h
          | obj fs2 => simp [normalizeLayoutPayload, ht, hg] at h
      | null => simp [normalizeLayoutPayload, ht] at h
      | bool b => simp [normalizeLayoutPayload, ht] at h
      | num n => simp [normalizeLayoutPayload, ht] at h
      | str st => simp [normalizeLayoutPayload, ht] at h
      | obj fs2 => simp [normalizeLayoutPayload, ht] at h

/-- **C5 (amended)** — Every accepted payload yields a state in which every
non-empty assignment entry sits on a real seat key of a cleaned table and
names a cleaned guest id; and every cleaned guest id is either in the pool
or assigned (but never both), with a duplicate-free pool.  (A guest id may
occupy more than one seat when the raw assignments repeat it, so "exactly
once across pool and assignment values" holds only for the set of assigned
ids, not seat-wise.) -/
theorem c5_normalized_state_integrity (p : JsonValue) (out : LayoutState)
    (h : normalizeLayoutPayload p = .ok out) :
    (∀ k g, amLookup out.assignments k = some (some g) →
      g ∈ gids out.guests ∧
      ∃ t ∈ out.tables, ∃ i, i < t.seatCount ∧ k = seatKey t.id i) ∧
    (∀ g ∈ gids out.guests,
      (g ∈ out.pool ↔ g ∉ assignedVals out.assignments)) ∧
    out.pool.Nodup ∧
    (∀ g ∈ out.pool, g ∈ gids out.guests ∧ g ∉ assignedVals out.assignments) := by
  obtain ⟨fields, rawT, rawG, aVal, entries, -, -, -, -, -, -, -, hassign, hpool⟩ :=
    normalize_ok_shape h
  have hmemset : ∀ g : String,
      g ∈ (assignedVals out.assignments).filter
        (fun x => decide (x ∈ gids out.guests)) ↔
      g ∈ assignedVals out.assignments ∧ g ∈ gids out.guests := by
    intro g
    rw [List.mem_filter]
    simp
  refine ⟨?_, ?_, ?_, ?_⟩
  · intro k g hk
    rw [hassign] at hk
    constructor
    · rcases populate_some_sound _ _ _ _ _ hk with h1 | h1
      · rw [amLookup_buildEmpty] at h1
        split at h1 <;> simp at h1
      · exact h1
    · have hkey : k ∈ amKeys (populateAssignments (gids out.guests)
          (buildEmptyAssignments out.tables) entries) := by
        rw [mem_amKeys_iff_lookup, hk]
        simp
      rw [populate_keys, mem_amKeys_iff_lookup, amLookup_buildEmpty] at hkey
      by_cases hcond : ∃ t ∈ out.tables, ∃ i, i < t.seatCount ∧
          k = seatKey t.id i
      · exact hcond
      · rw [if_neg hcond] at hkey
        exact absurd rfl hkey
  · intro g hg
    rw [hpool, mem_normalizePool]
    constructor
    · rintro ⟨-, hna⟩ hc
      exact hna ((hmemset g).mpr ⟨hc, hg⟩)
    · intro hna
      exact ⟨hg, fun hc => hna ((hmemset g).mp hc).1⟩
  · rw [hpool]
    exact nodup_normalizePool _ _ _
  · intro g hg
    rw [hpool, mem_normalizePool] at hg
    exact ⟨hg.1, fun hc => hg.2 ((hmemset g).mpr ⟨hc, hg.1⟩)⟩

/-- **C5 witness** — the integrity conclusions hold on a concrete accepted
payload. -/
theorem c5_witness :
    normalizeLayoutPayload (JsonValue.obj
      [("tables", .arr [.obj [("id", .str "t"), ("seatCount", .num (.num 2))]]),
       ("guests", .arr [.obj [("id", .str "g"), ("name", .str "G")]]),
       ("assignments", .obj [("t:0", .str "g")])]) =
      NormResult.ok { guests := [⟨"g", "G", none⟩],
                      tables := [⟨"t", 2, 0, 0⟩],
                      assignments := [("t:0", some "g"), ("t:1", none)],
                      pool := [] } ∧
    (∀ g ∈ gids [(⟨"g", "G", none⟩ : Guest)],
      (g ∈ ([] : List String) ↔
        g ∉ assignedVals [("t:0", some "g"), ("t:1", none)])) := by
  have hok : normalizeLayoutPayload (JsonValue.obj
      [("tables", .arr [.obj [("id", .str "t"), ("seatCount", .num (.num 2))]]),
       ("guests", .arr [.obj [("id", .str "g"), ("name", .str "G")]]),
       ("assignments", .obj [("t:0", .str "g")])]) =
      NormResult.ok { guests := [⟨"g", "G", none⟩],
                      tables := [⟨"t", 2, 0, 0⟩],
                      assignments := [("t:0", some "g"), ("t:1", none)],
                      pool := [] } := by decide
  exact ⟨hok, (c5_normalized_state_integrity _ _ hok).2.1⟩

/-- **C5 counterexample** — the claim says no guest id occupies more than
one seat in a normalized state, but a payload repeating a guest id at two
real seat keys is accepted with the guest seated twice. -/
theorem c5_counterexample :
    normalizeLayoutPayload (JsonValue.obj
      [("tables", .arr [.obj [("id", .str "t"), ("seatCount", .num (.num 2))]]),
       ("guests", .arr [.obj [("id", .str "g"), ("name", .str "G")]]),
       ("assignments", .obj [("t:0", .str "g"), ("t:1", .str "g")])]) =
      NormResult.ok { guests := [⟨"g", "G", none⟩],
                      tables := [⟨"t", 2, 0, 0⟩],
                      assignments := [("t:0", some "g"), ("t:1", some "g")],
                      pool := [] } ∧
    decide ((assignedVals [("t:0", some "g"), ("t:1", some "g")]).Nodup) = false := by
  constructor <;> decide


/-!
## Claim C8 — guest-list import id derivation and collision suffixing
-/

theorem append_natRepr_injective (pre : String) {a b : Nat}
    (h : pre ++ Nat.repr a = pre ++ Nat.repr b) : a = b := by
  apply natRepr_injective
  apply String.ext
  have h2 := congrArg String.data h
  rw [string_data_append, string_data_append] at h2
  exact List.append_cancel_left h2

/-- The collision-suffix loop returns the first free candidate, provided a
free candidate exists within the fuel bound. -/
theorem suffixLoop_spec (seen : List String) (base : String) :
    ∀ (fuel k : Nat),
      (∃ j, j < fuel ∧ (base ++ "-" ++ Nat.repr (k + j)) ∉ seen) →
      ∃ d, d < fuel ∧
        suffixLoop seen base fuel k = base ++ "-" ++ Nat.repr (k + d) ∧
        (base ++ "-" ++ Nat.repr (k + d)) ∉ seen ∧
        ∀ e, e < d → (base ++ "-" ++ Nat.repr (k + e)) ∈ seen := by
  intro fuel
  induction fuel with
  | zero =>
    rintro k ⟨j, hj, -⟩
    omega
  | succ f ih =>
    rintro k ⟨j, hj, hfree⟩
    by_cases h0 : (base ++ "-" ++ Nat.repr k) ∈ seen
    · have hj0 : j ≠ 0 := by
        rintro rfl
        rw [Nat.add_zero] at hfree
        exact hfree h0
      have hex : ∃ j2, j2 < f ∧ (base ++ "-" ++ Nat.repr (k + 1 + j2)) ∉ seen := by
        refine ⟨j - 1, by omega, ?_⟩
        have hj1 : k + 1 + (j - 1) = k + j := by omega
        rw [hj1]
        exact hfree
      obtain ⟨d, hd, heq, hfree2, hmin⟩ := ih (k + 1) hex
      have hkd : k + 1 + d = k + (d + 1) := by omega
      rw [hkd] at heq hfree2
      refine ⟨d + 1, by omega, ?_, hfree2, ?_⟩
      · rw [suffixLoop, if_pos h0]
        exact heq
      · intro e he
        cases e with
        | zero => simpa using h0
        | succ e2 =>
          have := hmin e2 (by omega)
          have hke : k + 1 + e2 = k + (e2 + 1) := by omega
          rwa [hke] at this
    · refine ⟨0, by omega, ?_, by simpa using h0, by omega⟩
      rw [suffixLoop, if_neg h0, Nat.add_zero]

/-- Pigeonhole: among `seen.length + 1` distinct suffix candidates one is
not in `seen`. -/
theorem exists_free_suffix (seen : List String) (base : String) :
    ∃ j, j ≤ seen.length ∧ (base ++ "-" ++ Nat.repr (2 + j)) ∉ seen := by
  by_contra hc
  push_neg at hc
  have hsub : ∀ j ∈ Finset.range (seen.length + 1),
      (base ++ "-" ++ Nat.repr (2 + j)) ∈ seen.toFinset := by
    intro j hj
    rw [List.mem_toFinset]
    exact hc j (by simpa [Nat.lt_succ_iff] using hj)
  have hinj : Set.InjOn (fun j => base ++ "-" ++ Nat.repr (2 + j))
      (Finset.range (seen.length + 1)) := by
    intro a _ b _ hab
    have := append_natRepr_injective (base ++ "-") hab
    omega
  have hcard := Finset.card_le_card_of_injOn _ hsub hinj
  rw [Finset.card_range] at hcard
  have hlen := seen.toFinset_card_le
  omega

/-- Candidate-id correctness: the base id if unused, else the suffixed id
with the smallest suffix `k ≥ 2` not yet used. -/
theorem candidateId_spec (seen : List String) (base : String) :
    (base ∉ seen → candidateId seen base = base) ∧
    (base ∈ seen → ∃ k, 2 ≤ k ∧
      candidateId seen base = base ++ "-" ++ Nat.repr k ∧
      (base ++ "-" ++ Nat.repr k) ∉ seen ∧
      ∀ j, 2 ≤ j → j < k → (base ++ "-" ++ Nat.repr j) ∈ seen) := by
  constructor
  · intro h
    rw [candidateId, if_neg h]
  · intro h
    rw [candidateId, if_pos h]
    obtain ⟨j, hj, hfree⟩ := exists_free_suffix seen base
    obtain ⟨d, -, heq, hfree2, hmin⟩ :=
      suffixLoop_spec seen base (seen.length + 1) 2 ⟨j, by omega, hfree⟩
    refine ⟨2 + d, by omega, heq, hfree2, ?_⟩
    intro i h2i hik
    have := hmin (i - 2) (by omega)
    have hi : 2 + (i - 2) = i := by omega
    rwa [hi] at this

/-- The record-level import rule prescribed by the (amended) claim: a record
survives when its trimmed name is non-empty and its base id — the trimmed
provided id if non-empty, else the slug of the trimmed name — is non-empty. -/
def importRecordSpec (item : JsonValue) :
    Option (String × String × Option String) :=
  match asRecord item with
  | none => none
  | some r =>
    let rawName := jsTrim
      (match lookupField r "name" with | some (.str s) => s | _ => "")
    let providedId := jsTrim
      (match lookupField r "id" with | some (.str s) => s | _ => "")
    let base := if providedId ≠ "" then providedId else slugify rawName
    if rawName = "" ∨ base = "" then none
    else
      some (base, rawName,
        match lookupField r "details" with | some (.str s) => some s | _ => none)

theorem importGuestsGo_eq (seen : List String) (item : JsonValue)
    (rest : List JsonValue) :
    importGuestsGo seen (item :: rest) =
      match importRecordSpec item with
      | none => importGuestsGo seen rest
      | some (base, nm, det) =>
        ⟨candidateId seen base, nm, det⟩ ::
          importGuestsGo (candidateId seen base :: seen) rest := by
  cases hr : asRecord item with
  | none => simp [importGuestsGo, importRecordSpec, hr]
  | some r =>
    by_cases hname : jsTrim
        (match lookupField r "name" with | some (.str s) => s | _ => "") = ""
    · simp [importGuestsGo, importRecordSpec, hr, hname]
    · by_cases hpid : jsTrim (match lookupField r "id" with
          | some (.str s) => s | _ => "") = ""
      · by_cases hslug : slugify (jsTrim (match lookupField r "name" with
            | some (.str s) => s | _ => "")) = ""
        · simp [importGuestsGo, importRecordSpec, hr, hname, hpid, hslug]
        · simp [importGuestsGo, importRecordSpec, hr, hname, hpid, hslug]
      · simp [importGuestsGo, importRecordSpec, hr, hname, hpid]

/-- **C8 (amended)** — The guest-list import (a) derives each surviving
record's base id from the whitespace-trimmed provided id when that is
non-empty, else from the trimmed name lowercased with runs of
non-alphanumerics collapsed to one hyphen and edge hyphens removed; records
whose trimmed name is empty are dropped even when an id is provided, as are
records whose base id comes out empty; (b) resolves a base-id collision by
appending `-k` for the smallest `k ≥ 2` not yet used; and (c) in
particular imports `[{name: "Alice"}, {name: "Alice"}]` as ids `alice` and
`alice-2`. -/
theorem c8_import_id_derivation :
    (∀ (seen : List String) (item : JsonValue) (rest : List JsonValue),
      importGuestsGo seen (item :: rest) =
        match importRecordSpec item with
        | none => importGuestsGo seen rest
        | some (base, nm, det) =>
          ⟨candidateId seen base, nm, det⟩ ::
            importGuestsGo (candidateId seen base :: seen) rest) ∧
    (∀ (seen : List String) (base : String),
      (base ∉ seen → candidateId seen base = base) ∧
      (base ∈ seen → ∃ k, 2 ≤ k ∧
        candidateId seen base = base ++ "-" ++ Nat.repr k ∧
        (base ++ "-" ++ Nat.repr k) ∉ seen ∧
        ∀ j, 2 ≤ j → j < k → (base ++ "-" ++ Nat.repr j) ∈ seen)) ∧
    importGuests [JsonValue.obj [("name", .str "Alice")],
                  JsonValue.obj [("name", .str "Alice")]] =
      [⟨"alice", "Alice", none⟩, ⟨"alice-2", "Alice", none⟩] :=
  ⟨importGuestsGo_eq, candidateId_spec, by decide⟩

/-- **C8 witness** — the collision rule at concrete inputs: `alice` is
taken, `alice-2` and `alice-3` are already used, so the smallest free
suffix is 4. -/
theorem c8_witness :
    ("alice" ∈ ["alice-2", "alice", "alice-3"] ∧
      candidateId ["alice-2", "alice", "alice-3"] "alice" = "alice-4") ∧
    importGuestsGo [] [JsonValue.obj [("name", .str "Alice")]] =
      [⟨"alice", "Alice", none⟩] := by
  constructor
  · constructor
    · decide
    · obtain ⟨k, h2k, heq, hfree, hmin⟩ :=
        (c8_import_id_derivation.2.1 ["alice-2", "alice", "alice-3"]
          "alice").2 (by decide)
      have hk : k = 4 := by
        by_contra hne
        rcases Nat.lt_or_ge k 4 with hlt | hge
        · interval_cases k
          · exact absurd heq (by decide)
          · exact absurd heq (by decide)
        · have := hmin 4 (by omega) (by omega)
          exact absurd this (by decide)
      rw [heq, hk]
      rfl
  · exact (c8_import_id_derivation.1 [] _ []).trans (by decide)

/-- **C8 counterexample** — the claim says a record's id is the provided id
whenever that is non-empty; but a record with a provided id and an empty
name is dropped entirely, and surrounding whitespace in a provided id is
trimmed away rather than kept. -/
theorem c8_counterexample :
    importGuests [JsonValue.obj [("id", .str "x"), ("name", .str "")]] = [] ∧
    importGuests [JsonValue.obj [("id", .str " x "), ("name", .str "N")]] =
      [⟨"x", "N", none⟩] := by
  constructor <;> decide


/-!
## The model invariant (claims C1, C3, C6, C7)
-/

/-- The inductive state invariant: the pool/assignment invariant of the
claim (union = guest ids, no duplicates, disjointness) together with the
structural facts true of every state the application builds — unique
assignment keys and non-empty guest ids. -/
def ModelInv (s : AppState) : Prop :=
  (∀ g ∈ s.pool, g ∈ gids s.guests) ∧
  s.pool.Nodup ∧
  (∀ g ∈ assignedVals s.assignments, g ∈ gids s.guests) ∧
  (assignedVals s.assignments).Nodup ∧
  (∀ g ∈ s.pool, g ∉ assignedVals s.assignments) ∧
  (∀ g ∈ gids s.guests, g ∈ s.pool ∨ g ∈ assignedVals s.assignments) ∧
  (amKeys s.assignments).Nodup ∧
  (∀ g ∈ gids s.guests, g ≠ "")

theorem truthyLookup_eq_some_iff {m : AssignMap} {k d : String} :
    truthyLookup m k = some d ↔ amLookup m k = some (some d) ∧ d ≠ "" := by
  rw [truthyLookup]
  cases hl : amLookup m k with
  | none => simp
  | some v =>
    cases v with
    | none => simp [truthyVal]
    | some w =>
      simp only [truthyVal]
      by_cases hw : w = ""
      · subst hw
        simp only [if_pos rfl]
        constructor
        · intro hc; exact absurd hc (by simp)
        · rintro ⟨h1, h2⟩
          injection h1 with h1
          injection h1 with h1
          exact absurd h1.symm h2
      · rw [if_neg hw]
        constructor
        · intro hc
          injection hc with hc
          subst hc
          exact ⟨rfl, hw⟩
        · rintro ⟨h1, -⟩
          injection h1

theorem truthyLookup_eq_none_cases {m : AssignMap} {k : String}
    (h : truthyLookup m k = none) :
    amLookup m k = none ∨ amLookup m k = some none ∨
      amLookup m k = some (some "") := by
  rw [truthyLookup] at h
  cases hl : amLookup m k with
  | none => exact Or.inl rfl
  | some v =>
    cases v with
    | none => exact Or.inr (Or.inl rfl)
    | some w =>
      rw [hl] at h
      simp only [truthyVal] at h
      by_cases hw : w = ""
      · subst hw; exact Or.inr (Or.inr rfl)
      · rw [if_neg hw] at h
        exact absurd h (by simp)

/-- Overwriting the unique entry that holds `d` with a different value
removes `d` from the assigned values. -/
theorem not_mem_assignedVals_amSet_of_ne {m : AssignMap} {k d : String}
    (hkeys : (amKeys m).Nodup) (hlk : amLookup m k = some (some d))
    (hnodup : (assignedVals m).Nodup) (w : Option String) (hw : w ≠ some d) :
    d ∉ assignedVals (amSet m k w) := by
  induction m with
  | nil => simp [amLookup] at hlk
  | cons kv rest ih =>
    obtain ⟨kh, vh⟩ := kv
    rw [amKeys_cons, List.nodup_cons] at hkeys
    by_cases hk : kh = k
    · subst hk
      rw [amLookup, if_pos rfl] at hlk
      injection hlk with hlk
      subst hlk
      rw [amSet, if_pos rfl]
      rw [assignedVals_cons_some, List.nodup_cons] at hnodup
      cases w with
      | none =>
        rw [assignedVals_cons_none]
        exact hnodup.1
      | some u =>
        rw [assignedVals_cons_some]
        intro hc
        rcases List.mem_cons.mp hc with h1 | h1
        · exact hw (by rw [h1])
        · exact hnodup.1 h1
    · rw [amLookup, if_neg hk] at hlk
      rw [amSet, if_neg hk]
      cases vh with
      | none =>
        rw [assignedVals_cons_none] at hnodup ⊢
        exact ih hkeys.2 hlk hnodup
      | some u =>
        rw [assignedVals_cons_some] at hnodup ⊢
        rw [List.nodup_cons] at hnodup
        intro hc
        rcases List.mem_cons.mp hc with h1 | h1
        · subst h1
          exact hnodup.1 (mem_assignedVals_of_lookup hlk)
        · exact ih hkeys.2 hlk hnodup.2 h1

/-- The follow-up effects establish the full invariant whenever the
assignment half of the invariant holds. -/
theorem modelInv_runEffects {s : AppState}
    (hknown : ∀ g ∈ assignedVals s.assignments, g ∈ gids s.guests)
    (hnodupA : (assignedVals s.assignments).Nodup)
    (hkeys : (amKeys s.assignments).Nodup)
    (hids : ∀ g ∈ gids s.guests, g ≠ "") :
    ModelInv (runEffects s) := by
  have hfilter : (assignedVals s.assignments).filter
      (fun x => decide (x ∈ gids s.guests)) = assignedVals s.assignments :=
    List.filter_eq_self.mpr (fun a ha => decide_eq_true (hknown a ha))
  refine ⟨?_, ?_, hknown, hnodupA, ?_, ?_, hkeys, hids⟩
  · intro g hg
    rw [runEffects] at hg
    simp only at hg
    exact (mem_reconcilePool.mp hg).1
  · rw [runEffects]
    exact nodup_reconcilePool _ _ _
  · intro g hg
    rw [runEffects] at hg
    simp only at hg
    have := (mem_reconcilePool.mp hg).2
    rw [hfilter] at this
    exact this
  · intro g hg
    by_cases ha : g ∈ assignedVals s.assignments
    · exact Or.inr ha
    · left
      rw [runEffects]
      simp only
      rw [mem_reconcilePool, hfilter]
      exact ⟨hg, ha⟩


/-!
## Per-operation invariant preservation
-/

theorem releaseFold_facts (keys : List String) :
    ∀ (a : AssignMap) (acc : List String),
      List.Sublist (assignedVals (keys.foldl releaseStep (a, acc)).1)
        (assignedVals a) ∧
      amKeys (keys.foldl releaseStep (a, acc)).1 = amKeys a := by
  induction keys with
  | nil => intro a acc; exact ⟨List.Sublist.refl _, rfl⟩
  | cons seat rest ih =>
    intro a acc
    rw [List.foldl_cons]
    cases ht : truthyLookup a seat with
    | none =>
      rw [releaseStep, ht]
      exact ih a acc
    | some g =>
      rw [releaseStep, ht]
      have hmem : seat ∈ amKeys a := by
        rw [mem_amKeys_iff_lookup, (truthyLookup_eq_some_iff.mp ht).1]
        simp
      obtain ⟨h1, h2⟩ := ih (amSet a seat none) (acc ++ [g])
      exact ⟨h1.trans (assignedVals_amSet_none_sublist a seat),
        h2.trans (amKeys_amSet_of_mem _ hmem)⟩

theorem shrinkFold_facts (tid : String) (js : List Nat) :
    ∀ (a : AssignMap) (acc : List String),
      List.Sublist (assignedVals (js.foldl (shrinkStep tid) (a, acc)).1)
        (assignedVals a) ∧
      List.Sublist (amKeys (js.foldl (shrinkStep tid) (a, acc)).1) (amKeys a) := by
  induction js with
  | nil => intro a acc; exact ⟨List.Sublist.refl _, List.Sublist.refl _⟩
  | cons j rest ih =>
    intro a acc
    rw [List.foldl_cons, shrinkStep]
    obtain ⟨h1, h2⟩ := ih (amDelete a (seatKey tid j)) _
    refine ⟨h1.trans (assignedVals_filter_sublist a _), h2.trans ?_⟩
    exact (List.filter_sublist a).map (fun kv => kv.1)

theorem growFold_facts (tid : String) (js : List Nat) :
    ∀ (m : AssignMap),
      List.Sublist (assignedVals (js.foldl (growStep tid) m)) (assignedVals m) ∧
      ((amKeys m).Nodup → (amKeys (js.foldl (growStep tid) m)).Nodup) := by
  induction js with
  | nil => intro m; exact ⟨List.Sublist.refl _, id⟩
  | cons j rest ih =>
    intro m
    rw [List.foldl_cons, growStep]
    obtain ⟨h1, h2⟩ := ih (amSet m (seatKey tid j) none)
    exact ⟨h1.trans (assignedVals_amSet_none_sublist m _),
      fun hn => h2 (nodup_amKeys_amSet _ hn)⟩


theorem modelInv_releaseSeats {s : AppState} (hInv : ModelInv s)
    (keys : List String) : ModelInv (releaseSeats s keys) := by
  rw [releaseSeats]
  by_cases hkeys : keys = []
  · rw [if_pos hkeys]; exact hInv
  · rw [if_neg hkeys]
    obtain ⟨-, -, ha1, ha2, -, -, hk, hi⟩ := hInv
    obtain ⟨hsub, hkeq⟩ := releaseFold_facts keys s.assignments []
    apply modelInv_runEffects
    · intro g hg
      exact ha1 g (hsub.subset hg)
    · exact ha2.sublist hsub
    · rw [hkeq]; exact hk
    · exact hi

theorem amKeys_filter_sublist (m : AssignMap) (p : String × Option String → Bool) :
    List.Sublist (amKeys (m.filter p)) (amKeys m) := by
  simp only [amKeys]
  exact (List.filter_sublist m).map _

theorem modelInv_handleRemoveTable {s : AppState} (hInv : ModelInv s)
    (tid : String) : ModelInv (handleRemoveTable s tid) := by
  obtain ⟨-, -, ha1, ha2, -, -, hk, hi⟩ := hInv
  simp only [handleRemoveTable]
  apply modelInv_runEffects
  · intro g hg
    exact ha1 g ((assignedVals_filter_sublist _ _).subset hg)
  · exact ha2.sublist (assignedVals_filter_sublist _ _)
  · exact hk.sublist (amKeys_filter_sublist _ _)
  · exact hi

theorem modelInv_updateSeatCount {s : AppState} (hInv : ModelInv s)
    (tid : String) (q : ℚ) : ModelInv (updateSeatCount s tid q) := by
  cases hf : s.tables.find? (fun e => decide (e.id = tid)) with
  | none =>
    simp only [updateSeatCount, hf]
    exact hInv
  | some table =>
    by_cases hsan : sanitizeSeatCount q = table.seatCount
    · simp only [updateSeatCount, hf, if_pos hsan]
      exact hInv
    · simp only [updateSeatCount, hf, if_neg hsan]
      obtain ⟨-, -, ha1, ha2, -, -, hk, hi⟩ := hInv
      by_cases hlt : sanitizeSeatCount q < table.seatCount
      · rw [if_pos hlt]
        obtain ⟨hsub, hksub⟩ := shrinkFold_facts table.id
          (List.range' (sanitizeSeatCount q)
            (table.seatCount - sanitizeSeatCount q)) s.assignments []
        apply modelInv_runEffects
        · intro g hg
          exact ha1 g (hsub.subset hg)
        · exact ha2.sublist hsub
        · exact hk.sublist hksub
        · exact hi
      · rw [if_neg hlt]
        obtain ⟨hsub, hknd⟩ := growFold_facts table.id
          (List.range' table.seatCount
            (sanitizeSeatCount q - table.seatCount)) s.assignments
        apply modelInv_runEffects
        · intro g hg
          exact ha1 g (hsub.subset hg)
        · exact ha2.sublist hsub
        · exact hknd hk
        · exact hi

/-- Well-formedness of one `assignGuest` call: whenever the moved guest
currently occupies a seat, that seat is passed as `fromSeatKey`.  Every call
the interaction surface issues satisfies this (a drag out of a seat carries
its seat key; a drag out of the pool concerns an unseated guest). -/
def WfAssign (s : AppState) (guestId : String) (fromSeat : Option String) : Prop :=
  ∀ k ∈ amKeys s.assignments,
    amLookup s.assignments k = some (some guestId) → fromSeat = some k

theorem modelInv_assignGuestToSeat {s : AppState} (hInv : ModelInv s)
    (guestId tableId : String) (seatIndex : Nat) (fromSeat : Option String)
    (hwf : WfAssign s guestId fromSeat) :
    ModelInv (assignGuestToSeat s guestId tableId seatIndex fromSeat) := by
  by_cases hg : guestId ∈ gids s.guests
  · obtain ⟨-, -, ha1, ha2, -, -, hk, hi⟩ := hInv
    have hknown2 : ∀ (m : AssignMap),
        (∀ y ∈ assignedVals m, y ∈ gids s.guests ∨ y = guestId) →
        ∀ y ∈ assignedVals m, y ∈ gids s.guests := by
      intro m hm y hy
      rcases hm y hy with h | h
      · exact h
      · exact h ▸ hg
    cases hfrom : fromSeat with
    | none =>
      have hnot : guestId ∉ assignedVals s.assignments := by
        intro hc
        obtain ⟨k0, hk0⟩ := (mem_assignedVals_iff_lookup hk).mp hc
        have hmem0 : k0 ∈ amKeys s.assignments := by
          rw [mem_amKeys_iff_lookup, hk0]; simp
        have := hwf k0 hmem0 hk0
        rw [hfrom] at this
        exact absurd this (by simp)
      simp only [assignGuestToSeat, if_pos hg]
      apply modelInv_runEffects
      · intro y hy
        rcases mem_assignedVals_amSet hy with h | h
        · exact ha1 y h
        · injection h with h
          exact h ▸ hg
      · exact nodup_assignedVals_amSet_some ha2 hnot
      · exact nodup_amKeys_amSet _ hk
      · exact hi
    | some f =>
      by_cases hmem : guestId ∈ assignedVals s.assignments
      · obtain ⟨k0, hk0⟩ := (mem_assignedVals_iff_lookup hk).mp hmem
        have hmem0 : k0 ∈ amKeys s.assignments := by
          rw [mem_amKeys_iff_lookup, hk0]; simp
        have hf0 : f = k0 := by
          have := hwf k0 hmem0 hk0
          rw [hfrom] at this
          injection this
        subst hf0
        by_cases hkey : seatKey tableId seatIndex = f
        · simp only [assignGuestToSeat, if_pos hg, hkey, amSet_amSet_same]
          apply modelInv_runEffects
          · intro y hy
            rcases mem_assignedVals_amSet hy with h | h
            · exact ha1 y h
            · exact absurd h (by simp)
          · exact ha2.sublist (assignedVals_amSet_none_sublist _ _)
          · exact nodup_amKeys_amSet _ hk
          · exact hi
        · have hcomm : amSet (amSet s.assignments
              (seatKey tableId seatIndex) (some guestId)) f none =
              amSet (amSet s.assignments f none)
                (seatKey tableId seatIndex) (some guestId) :=
            amSet_comm _ _ hmem0 hkey
          simp only [assignGuestToSeat, if_pos hg, hcomm]
          have hinner1 : guestId ∉ assignedVals (amSet s.assignments f none) :=
            not_mem_assignedVals_amSet_none hk hk0 ha2
          apply modelInv_runEffects
          · intro y hy
            rcases mem_assignedVals_amSet hy with h | h
            · exact ha1 y
                ((assignedVals_amSet_none_sublist s.assignments f).subset h)
            · injection h with h
              exact h ▸ hg
          · exact nodup_assignedVals_amSet_some
              (ha2.sublist (assignedVals_amSet_none_sublist _ _)) hinner1
          · exact nodup_amKeys_amSet _ (nodup_amKeys_amSet _ hk)
          · exact hi
      · simp only [assignGuestToSeat, if_pos hg]
        apply modelInv_runEffects
        · intro y hy
          rcases mem_assignedVals_amSet hy with h | h
          · rcases mem_assignedVals_amSet h with h2 | h2
            · exact ha1 y h2
            · injection h2 with h2
              exact h2 ▸ hg
          · exact absurd h (by simp)
        · exact (nodup_assignedVals_amSet_some ha2 hmem).sublist
            (assignedVals_amSet_none_sublist _ _)
        · exact nodup_amKeys_amSet _ (nodup_amKeys_amSet _ hk)
        · exact hi
  · simp only [assignGuestToSeat, if_neg hg]
    exact hInv

/-- Well-formedness of an operation (only `assignGuest` is constrained). -/
def WfOp (s : AppState) : Op → Prop
  | .assign guestId _ _ fromSeat => WfAssign s guestId fromSeat
  | _ => True

theorem modelInv_applyOp {s : AppState} {op : Op} (hInv : ModelInv s)
    (hwf : WfOp s op) : ModelInv (applyOp s op) := by
  cases op with
  | assign g t i f => exact modelInv_assignGuestToSeat hInv g t i f hwf
  | release keys => exact modelInv_releaseSeats hInv keys
  | resize t q => exact modelInv_updateSeatCount hInv t q
  | remove t => exact modelInv_handleRemoveTable hInv t

/-- A sequence of operations each well-formed in the state it runs in. -/
inductive OkOps : AppState → List Op → Prop where
  | nil (s : AppState) : OkOps s []
  | cons (s : AppState) (op : Op) (ops : List Op) :
      WfOp s op → OkOps (applyOp s op) ops → OkOps s (op :: ops)


theorem modelInv_applyOps {s : AppState} {ops : List Op} (hInv : ModelInv s)
    (hok : OkOps s ops) : ModelInv (applyOps s ops) := by
  induction ops generalizing s with
  | nil => exact hInv
  | cons op rest ih =>
    cases hok with
    | cons _ _ _ hwf hrest => exact ih (modelInv_applyOp hInv hwf) hrest

/-- C1 (amended): starting from any state satisfying the model invariant,
after any sequence of assignGuest / releaseSeats / resizeTable / removeTable
operations (each followed by the pool-reconciliation and selection-prune
effects) in which every assignGuest call for a guest currently occupying a
seat passes that seat as fromSeatKey, the pool together with the non-empty
assignment values covers exactly the guest id set, with no duplicates within
either collection and no guest both pooled and assigned.  The unamended
claim, quantified over all call sequences, is refuted by c1_counterexample:
assigning an already-seated guest without fromSeatKey seats the guest twice. -/
theorem c1_operations_preserve_invariant (s : AppState) (ops : List Op)
    (hInv : ModelInv s) (hok : OkOps s ops) :
    (∀ g, (g ∈ (applyOps s ops).pool ∨ g ∈ assignedVals (applyOps s ops).assignments)
        ↔ g ∈ gids (applyOps s ops).guests) ∧
    (applyOps s ops).pool.Nodup ∧
    (assignedVals (applyOps s ops).assignments).Nodup ∧
    (∀ g ∈ (applyOps s ops).pool, g ∉ assignedVals (applyOps s ops).assignments) := by
  obtain ⟨hp1, hp2, ha1, ha2, hd, hc, -, -⟩ := modelInv_applyOps hInv hok
  refine ⟨fun g => ⟨fun h => ?_, fun h => hc g h⟩, hp2, ha2, hd⟩
  rcases h with h | h
  · exact hp1 g h
  · exact ha1 g h

/-- A one-guest, one-table state with the guest seated at seat t:0 and a
second, empty seat t:1; it satisfies the model invariant. -/
def c1s0 : AppState :=
  { guests := [⟨"g", "G", none⟩],
    tables := [⟨"t", 2, 0, 0⟩],
    assignments := [("t:0", some "g"), ("t:1", none)],
    pool := [],
    selected := [] }

/-- Refutation of C1 as stated: from the invariant-satisfying state c1s0,
the model operation assignGuest("g", "t", 1) with no fromSeatKey — a sequence
the claim quantifies over — duplicates the guest across two seats, so the
non-empty assignment values are no longer duplicate-free. -/
theorem c1_counterexample :
    ModelInv c1s0 ∧
    assignedVals (applyOps c1s0 [Op.assign "g" "t" 1 none]).assignments
      = ["g", "g"] ∧
    ¬ (assignedVals (applyOps c1s0 [Op.assign "g" "t" 1 none]).assignments).Nodup := by
  refine ⟨by unfold ModelInv; decide, by decide, by decide⟩

/-- Witness instantiating c1_operations_preserve_invariant on the concrete
state c1s0 with a releaseSeats operation. -/
theorem c1_witness :
    ModelInv c1s0 ∧
    (assignedVals (applyOps c1s0 [Op.release ["t:0"]]).assignments).Nodup := by
  refine ⟨by unfold ModelInv; decide, ?_⟩
  exact (c1_operations_preserve_invariant c1s0 [Op.release ["t:0"]]
    (by unfold ModelInv; decide)
    (OkOps.cons _ _ _ trivial (OkOps.nil _))).2.2.1


/-- C3 (amended): for a known guest g occupying seat A, moving it with
assignGuest to a DIFFERENT target seat B = seatKey tB iB while passing
fromSeatKey = A leaves A empty, puts exactly g on B, keeps g out of the
pool, pushes a displaced occupant of B (necessarily distinct from g) to the
front of the pool leaving the pool duplicate-free, and resets the selection
to exactly B; for an unknown guest the call is a no-op.  The unamended
claim, which also covers A = B, is refuted by c3_counterexample: dropping a
guest back onto its own seat clears the seat and pools the guest. -/
theorem c3_move_semantics (s : AppState) (g tB A : String) (iB : Nat)
    (hInv : ModelInv s) (hg : g ∈ gids s.guests)
    (hA : amLookup s.assignments A = some (some g))
    (hAB : A ≠ seatKey tB iB) :
    amLookup (assignGuestToSeat s g tB iB (some A)).assignments A = some none ∧
    amLookup (assignGuestToSeat s g tB iB (some A)).assignments (seatKey tB iB)
      = some (some g) ∧
    g ∉ (assignGuestToSeat s g tB iB (some A)).pool ∧
    (assignGuestToSeat s g tB iB (some A)).pool.Nodup ∧
    (assignGuestToSeat s g tB iB (some A)).pool =
      (match truthyLookup s.assignments (seatKey tB iB) with
       | some d => d :: s.pool
       | none => s.pool) ∧
    (assignGuestToSeat s g tB iB (some A)).selected = [seatKey tB iB] ∧
    (∀ (g2 tB2 : String) (iB2 : Nat) (f2 : Option String),
      g2 ∉ gids s.guests → assignGuestToSeat s g2 tB2 iB2 f2 = s) := by
  obtain ⟨hp1, hp2, ha1, ha2, hd, hc, hk, hi⟩ := hInv
  have hnoop : ∀ (g2 tB2 : String) (iB2 : Nat) (f2 : Option String),
      g2 ∉ gids s.guests → assignGuestToSeat s g2 tB2 iB2 f2 = s := by
    intro g2 tB2 iB2 f2 hg2
    simp only [assignGuestToSeat]
    rw [if_neg hg2]
  have hBA : ¬ (seatKey tB iB = A) := fun h => hAB h.symm
  have hid : g ≠ "" := hi g hg
  have hgvals : g ∈ assignedVals s.assignments := mem_assignedVals_of_lookup hA
  have hgpool : g ∉ s.pool := fun hcon => hd g hcon hgvals
  have hLA : amLookup
      (amSet (amSet s.assignments (seatKey tB iB) (some g)) A none) A
      = some none := by
    rw [amLookup_amSet, if_pos rfl]
  have hLB : amLookup
      (amSet (amSet s.assignments (seatKey tB iB) (some g)) A none)
      (seatKey tB iB) = some (some g) := by
    rw [amLookup_amSet, if_neg hBA, amLookup_amSet, if_pos rfl]
  have hgA2 : g ∈ assignedVals
      (amSet (amSet s.assignments (seatKey tB iB) (some g)) A none) :=
    mem_assignedVals_of_lookup hLB
  have hvals2 : ∀ y ∈ assignedVals
      (amSet (amSet s.assignments (seatKey tB iB) (some g)) A none),
      y ∈ assignedVals s.assignments ∨ y = g := by
    intro y hy
    rcases mem_assignedVals_amSet hy with h1 | h1
    · rcases mem_assignedVals_amSet h1 with h2 | h2
      · exact Or.inl h2
      · injection h2 with h2
        exact Or.inr h2.symm
    · exact absurd h1 (by simp)
  have hLother : ∀ q, q ≠ A → q ≠ seatKey tB iB →
      amLookup (amSet (amSet s.assignments (seatKey tB iB) (some g)) A none) q
        = amLookup s.assignments q := by
    intro q h1 h2
    rw [amLookup_amSet, if_neg h1, amLookup_amSet, if_neg h2]
  have hcomp : ∀ x ∈ gids s.guests,
      x ∉ assignedVals
        (amSet (amSet s.assignments (seatKey tB iB) (some g)) A none) →
      x ∈ s.pool ∨ amLookup s.assignments (seatKey tB iB) = some (some x) := by
    intro x hx hnx
    rcases hc x hx with h | h
    · exact Or.inl h
    · obtain ⟨k0, hk0⟩ := (mem_assignedVals_iff_lookup hk).mp h
      by_cases hkA : k0 = A
      · subst hkA
        rw [hA] at hk0
        injection hk0 with hk0
        injection hk0 with hk0
        subst hk0
        exact absurd hgA2 hnx
      · by_cases hkB : k0 = seatKey tB iB
        · subst hkB
          exact Or.inr hk0
        · have hpres := hLother k0 hkA hkB
          rw [hk0] at hpres
          exact absurd (mem_assignedVals_of_lookup hpres) hnx
  have htL : truthyLookup
      (amSet (amSet s.assignments (seatKey tB iB) (some g)) A none)
      (seatKey tB iB) = some g :=
    truthyLookup_eq_some_iff.mpr ⟨hLB, hid⟩
  have hsel : List.filter
      (fun k => (truthyLookup
        (amSet (amSet s.assignments (seatKey tB iB) (some g)) A none) k).isSome)
      [seatKey tB iB] = [seatKey tB iB] := by
    simp [List.filter_cons, htL]
  cases hdisp : truthyLookup s.assignments (seatKey tB iB) with
  | some d =>
    obtain ⟨hBd, hdne⟩ := truthyLookup_eq_some_iff.mp hdisp
    have hdvals : d ∈ assignedVals s.assignments := mem_assignedVals_of_lookup hBd
    have hdg : d ≠ g := by
      intro h
      subst h
      have h2 : amLookup (amSet s.assignments A none) (seatKey tB iB)
          = some (some d) := by
        rw [amLookup_amSet, if_neg hBA]
        exact hBd
      exact not_mem_assignedVals_amSet_none hk hA ha2
        (mem_assignedVals_of_lookup h2)
    have hdknown : d ∈ gids s.guests := ha1 d hdvals
    have hdpool : d ∉ s.pool := fun hcon => hd d hcon hdvals
    have hdA2 : d ∉ assignedVals
        (amSet (amSet s.assignments (seatKey tB iB) (some g)) A none) := by
      intro hcon
      rcases mem_assignedVals_amSet hcon with h1 | h1
      · exact not_mem_assignedVals_amSet_of_ne hk hBd ha2 (some g)
          (fun he => hdg (by injection he with he2; exact he2.symm)) h1
      · simp at h1
    have hdd : dedupFirst [d] = [d] := by
      simp [dedupFirst, dedupFirstAux]
    have hret : returnGuestsToPool s.guests s.pool [d] = d :: s.pool := by
      simp only [returnGuestsToPool, hdd]
      rw [if_neg (by simp)]
      have hfil : s.pool.filter (fun x => decide (x ∉ [d])) = s.pool :=
        List.filter_eq_self.mpr (fun x hx => decide_eq_true (by
          simp only [List.mem_singleton]
          intro he
          exact hdpool (he ▸ hx)))
      have hadd : [d].filter (fun x => decide (x ∈ gids s.guests)) = [d] := by
        simp [hdknown]
      rw [hfil, hadd]
      rfl
    have hpool : reconcilePool s.guests
        (amSet (amSet s.assignments (seatKey tB iB) (some g)) A none)
        (d :: s.pool) = d :: s.pool := by
      apply reconcilePool_eq_self
      · exact List.nodup_cons.mpr ⟨hdpool, hp2⟩
      · intro x hx
        rcases List.mem_cons.mp hx with h1 | h1
        · subst h1
          refine ⟨hdknown, fun hcon => hdA2 (List.mem_filter.mp hcon).1⟩
        · refine ⟨hp1 x h1, ?_⟩
          intro hcon
          rcases hvals2 x (List.mem_filter.mp hcon).1 with h2 | h2
          · exact hd x h1 h2
          · subst h2
            exact hgpool h1
      · intro x hx hnx
        have hnx2 : x ∉ assignedVals
            (amSet (amSet s.assignments (seatKey tB iB) (some g)) A none) :=
          fun hcon => hnx (List.mem_filter.mpr ⟨hcon, decide_eq_true hx⟩)
        rcases hcomp x hx hnx2 with h | h
        · exact List.mem_cons_of_mem _ h
        · rw [hBd] at h
          injection h with h
          injection h with h
          subst h
          exact List.mem_cons_self _ _
    have hstate : assignGuestToSeat s g tB iB (some A) =
        { s with
          assignments := amSet (amSet s.assignments (seatKey tB iB) (some g)) A none,
          pool := d :: s.pool,
          selected := [seatKey tB iB] } := by
      simp only [assignGuestToSeat, if_pos hg, hdisp]
      rw [if_pos hdg]
      rw [hret]
      simp only [runEffects, hpool, hsel]
    refine ⟨?_, ?_, ?_, ?_, ?_, ?_, hnoop⟩ <;> rw [hstate]
    · exact hLA
    · exact hLB
    · intro hcon
      rcases List.mem_cons.mp hcon with h1 | h1
      · exact hdg h1.symm
      · exact hgpool h1
    · exact List.nodup_cons.mpr ⟨hdpool, hp2⟩
  | none =>
    have hpool : reconcilePool s.guests
        (amSet (amSet s.assignments (seatKey tB iB) (some g)) A none)
        s.pool = s.pool := by
      apply reconcilePool_eq_self
      · exact hp2
      · intro x hx
        refine ⟨hp1 x hx, ?_⟩
        intro hcon
        rcases hvals2 x (List.mem_filter.mp hcon).1 with h2 | h2
        · exact hd x hx h2
        · subst h2
          exact hgpool hx
      · intro x hx hnx
        have hnx2 : x ∉ assignedVals
            (amSet (amSet s.assignments (seatKey tB iB) (some g)) A none) :=
          fun hcon => hnx (List.mem_filter.mpr ⟨hcon, decide_eq_true hx⟩)
        rcases hcomp x hx hnx2 with h | h
        · exact h
        · exfalso
          rcases truthyLookup_eq_none_cases hdisp with h2 | h2 | h2 <;>
            rw [h2] at h
          · exact Option.noConfusion h
          · injection h with h
            exact Option.noConfusion h
          · injection h with h
            injection h with h
            exact hi x hx h.symm
    have hstate : assignGuestToSeat s g tB iB (some A) =
        { s with
          assignments := amSet (amSet s.assignments (seatKey tB iB) (some g)) A none,
          pool := s.pool,
          selected := [seatKey tB iB] } := by
      simp only [assignGuestToSeat, if_pos hg, hdisp]
      simp only [runEffects, hpool, hsel]
    refine ⟨?_, ?_, ?_, ?_, ?_, ?_, hnoop⟩ <;> rw [hstate]
    · exact hLA
    · exact hLB
    · exact hgpool
    · exact hp2

/-- A one-guest, one-seat state with the guest seated; it satisfies the
model invariant. -/
def c3s0 : AppState :=
  { guests := [⟨"g", "G", none⟩],
    tables := [⟨"t", 1, 0, 0⟩],
    assignments := [("t:0", some "g")],
    pool := [],
    selected := [] }

/-- Refutation of C3 as stated: with A = B = seatKey "t" 0 (the claim
quantifies over every pair of seat keys where the guest occupies A), the
call clears the seat instead of leaving the guest on it, and the guest is
returned to the pool. -/
theorem c3_counterexample :
    ModelInv c3s0 ∧
    amLookup c3s0.assignments (seatKey "t" 0) = some (some "g") ∧
    amLookup (assignGuestToSeat c3s0 "g" "t" 0 (some (seatKey "t" 0))).assignments
      (seatKey "t" 0) = some none ∧
    (assignGuestToSeat c3s0 "g" "t" 0 (some (seatKey "t" 0))).pool = ["g"] := by
  refine ⟨by unfold ModelInv; decide, by decide, by decide, by decide⟩

/-- Witness instantiating c3_move_semantics on the concrete state c1s0,
moving the seated guest from seat t:0 to seat t:1. -/
theorem c3_witness :
    ModelInv c1s0 ∧ "g" ∈ gids c1s0.guests ∧
    amLookup c1s0.assignments "t:0" = some (some "g") ∧ "t:0" ≠ seatKey "t" 1 ∧
    (assignGuestToSeat c1s0 "g" "t" 1 (some "t:0")).selected = [seatKey "t" 1] := by
  refine ⟨by unfold ModelInv; decide, by decide, by decide, by decide, ?_⟩
  exact (c3_move_semantics c1s0 "g" "t" "t:0" 1 (by unfold ModelInv; decide)
    (by decide) (by decide) (by decide)).2.2.2.2.2.1


theorem amLookup_amDelete (m : AssignMap) (k q : String) :
    amLookup (amDelete m k) q = if q = k then none else amLookup m q := by
  induction m with
  | nil =>
    simp only [amDelete, List.filter_nil, amLookup]
    exact (ite_self none).symm
  | cons kv rest ih =>
    obtain ⟨kh, vh⟩ := kv
    simp only [amDelete, List.filter_cons] at ih ⊢
    by_cases hkh : kh = k
    · rw [if_neg (by simp [hkh])]
      rw [ih]
      by_cases hq : q = k
      · rw [if_pos hq, if_pos hq]
      · rw [if_neg hq, if_neg hq, amLookup,
          if_neg (fun h => hq (by rw [← h, hkh]))]
    · rw [if_pos (by simp [hkh])]
      rw [amLookup]
      by_cases hq2 : kh = q
      · rw [if_pos hq2]
        rw [if_neg (fun h => hkh (hq2.symm ▸ h)), amLookup, if_pos hq2]
      · rw [if_neg hq2, ih, amLookup, if_neg hq2]

theorem lookup_some_inj {m : AssignMap} {k1 k2 d : String}
    (hk : (amKeys m).Nodup) (ha : (assignedVals m).Nodup)
    (h1 : amLookup m k1 = some (some d)) (h2 : amLookup m k2 = some (some d)) :
    k1 = k2 := by
  by_contra hne
  have h3 : amLookup (amSet m k1 none) k2 = some (some d) := by
    rw [amLookup_amSet, if_neg (fun h => hne h.symm)]
    exact h2
  exact not_mem_assignedVals_amSet_none hk h1 ha (mem_assignedVals_of_lookup h3)

theorem shrinkFold_lookup_none (tid : String) (js : List Nat)
    (acc : AssignMap × List String) (k : String) :
    (amLookup acc.1 k = none ∨ ∃ j ∈ js, k = seatKey tid j) →
    amLookup ((js.foldl (shrinkStep tid) acc).1) k = none := by
  induction js generalizing acc with
  | nil =>
    intro h
    rcases h with h | h
    · exact h
    · obtain ⟨j, hj, -⟩ := h
      exact absurd hj (List.not_mem_nil j)
  | cons j js ih =>
    intro h
    rw [List.foldl_cons]
    apply ih
    have hfst : (shrinkStep tid acc j).1 = amDelete acc.1 (seatKey tid j) := rfl
    rcases h with h | h
    · left
      rw [hfst, amLookup_amDelete]
      by_cases hq : k = seatKey tid j
      · rw [if_pos hq]
      · rw [if_neg hq]
        exact h
    · obtain ⟨j2, hj2, hkj2⟩ := h
      rcases List.mem_cons.mp hj2 with h2 | h2
      · left
        subst h2
        rw [hfst, amLookup_amDelete, if_pos hkj2]
      · exact Or.inr ⟨j2, h2, hkj2⟩

theorem shrinkFold_lookup_other (tid : String) (js : List Nat)
    (acc : AssignMap × List String) (k : String) :
    (∀ j ∈ js, k ≠ seatKey tid j) →
    amLookup ((js.foldl (shrinkStep tid) acc).1) k = amLookup acc.1 k := by
  induction js generalizing acc with
  | nil =>
    intro h
    rfl
  | cons j js ih =>
    intro h
    rw [List.foldl_cons, ih _ (fun j2 hj2 => h j2 (List.mem_cons_of_mem _ hj2))]
    have hfst : (shrinkStep tid acc j).1 = amDelete acc.1 (seatKey tid j) := rfl
    rw [hfst, amLookup_amDelete, if_neg (h j (List.mem_cons_self _ _))]

theorem growFold_lookup_other (tid : String) (js : List Nat)
    (m : AssignMap) (k : String) :
    (∀ j ∈ js, k ≠ seatKey tid j) →
    amLookup (js.foldl (growStep tid) m) k = amLookup m k := by
  induction js generalizing m with
  | nil =>
    intro h
    rfl
  | cons j js ih =>
    intro h
    rw [List.foldl_cons, ih _ (fun j2 hj2 => h j2 (List.mem_cons_of_mem _ hj2))]
    rw [growStep, amLookup_amSet, if_neg (h j (List.mem_cons_self _ _))]

theorem growFold_lookup_mem (tid : String) (js : List Nat)
    (m : AssignMap) (k : String) :
    (∃ j ∈ js, k = seatKey tid j) →
    amLookup (js.foldl (growStep tid) m) k = some none := by
  induction js generalizing m with
  | nil =>
    rintro ⟨j, hj, -⟩
    exact absurd hj (List.not_mem_nil j)
  | cons j js ih =>
    rintro ⟨j2, hj2, hkj⟩
    rw [List.foldl_cons]
    by_cases hin : ∃ j3 ∈ js, k = seatKey tid j3
    · exact ih _ hin
    · push_neg at hin
      rcases List.mem_cons.mp hj2 with h2 | h2
      · subst h2
        rw [growFold_lookup_other tid js _ k hin]
        rw [growStep, amLookup_amSet, if_pos hkj]
      · exact absurd hkj (hin j2 h2)


/-- C6: for an existing table (found by id, with table ids unique and every
assignment key a real seat key of some table, as the data model guarantees),
updateSeatCount clamps the request to [1, 24]; is a no-op when the clamp
equals the current seat count; on shrink deletes every key of that table
with index at or above the new count (lookup becomes undefined, not empty)
and returns each such occupant to the pool, leaving all other keys
unchanged; on grow adds empty entries exactly for the indices in
[oldSeatCount, newSeatCount), leaving all other keys unchanged. -/
theorem c6_resize_semantics (s : AppState) (tid : String) (q : ℚ) (t : Table)
    (hInv : ModelInv s)
    (hfind : s.tables.find? (fun e => decide (e.id = tid)) = some t)
    (htids : (s.tables.map (fun e => e.id)).Nodup)
    (hkv : ∀ k ∈ amKeys s.assignments, ∃ u ∈ s.tables,
      ∃ i ∈ List.range u.seatCount, k = seatKey u.id i) :
    (1 ≤ sanitizeSeatCount q ∧ sanitizeSeatCount q ≤ 24) ∧
    (sanitizeSeatCount q = t.seatCount → updateSeatCount s tid q = s) ∧
    (sanitizeSeatCount q ≠ t.seatCount →
      (updateSeatCount s tid q).tables = s.tables.map
        (fun e => if e.id = tid then { e with seatCount := sanitizeSeatCount q }
          else e)) ∧
    (sanitizeSeatCount q < t.seatCount →
      (∀ j, sanitizeSeatCount q ≤ j →
        amLookup (updateSeatCount s tid q).assignments (seatKey t.id j) = none) ∧
      (∀ j d, sanitizeSeatCount q ≤ j →
        truthyLookup s.assignments (seatKey t.id j) = some d →
        d ∈ (updateSeatCount s tid q).pool) ∧
      (∀ k, (∀ j, sanitizeSeatCount q ≤ j → j < t.seatCount →
          k ≠ seatKey t.id j) →
        amLookup (updateSeatCount s tid q).assignments k
          = amLookup s.assignments k)) ∧
    (t.seatCount < sanitizeSeatCount q →
      (∀ j, t.seatCount ≤ j → j < sanitizeSeatCount q →
        amLookup (updateSeatCount s tid q).assignments (seatKey t.id j)
          = some none) ∧
      (∀ k, (∀ j, t.seatCount ≤ j → j < sanitizeSeatCount q →
          k ≠ seatKey t.id j) →
        amLookup (updateSeatCount s tid q).assignments k
          = amLookup s.assignments k)) := by
  obtain ⟨-, -, ha1, ha2, -, -, hk, -⟩ := hInv
  have hmemt : t ∈ s.tables := List.mem_of_find?_eq_some hfind
  have hjlt : ∀ j, seatKey t.id j ∈ amKeys s.assignments → j < t.seatCount := by
    intro j hksome
    obtain ⟨u, hu, i, hi, hkey⟩ := hkv _ hksome
    obtain ⟨hid2, hij⟩ := seatKey_injective hkey
    have hut : u = t :=
      List.inj_on_of_nodup_map htids hu hmemt hid2.symm
    rw [List.mem_range] at hi
    rw [← hut]
    omega
  refine ⟨?_, ?_, ?_, ?_, ?_⟩
  · constructor
    · have hx : (1:ℤ) ≤ max 1 (min 24 ⌊q⌋) := le_max_left _ _
      rw [sanitizeSeatCount]
      omega
    · have hx : max 1 (min 24 ⌊q⌋) ≤ 24 :=
        max_le (by norm_num) (min_le_left _ _)
      rw [sanitizeSeatCount]
      omega
  · intro h
    simp only [updateSeatCount, hfind, if_pos h]
  · intro hne
    by_cases hlt : sanitizeSeatCount q < t.seatCount
    · simp only [updateSeatCount, hfind, if_neg hne, if_pos hlt, runEffects]
    · simp only [updateSeatCount, hfind, if_neg hne, if_neg hlt, runEffects]
  · intro hlt
    have hne : sanitizeSeatCount q ≠ t.seatCount := Nat.ne_of_lt hlt
    have hupA : (updateSeatCount s tid q).assignments =
        ((List.range' (sanitizeSeatCount q)
          (t.seatCount - sanitizeSeatCount q)).foldl (shrinkStep t.id)
          (s.assignments, [])).1 := by
      simp only [updateSeatCount, hfind, if_neg hne, if_pos hlt, runEffects]
    have hupP : (updateSeatCount s tid q).pool =
        reconcilePool s.guests
          ((List.range' (sanitizeSeatCount q)
            (t.seatCount - sanitizeSeatCount q)).foldl (shrinkStep t.id)
            (s.assignments, [])).1
          (returnGuestsToPool s.guests s.pool
            ((List.range' (sanitizeSeatCount q)
              (t.seatCount - sanitizeSeatCount q)).foldl (shrinkStep t.id)
              (s.assignments, [])).2) := by
      simp only [updateSeatCount, hfind, if_neg hne, if_pos hlt, runEffects]
    refine ⟨?_, ?_, ?_⟩
    · intro j hj
      rw [hupA]
      by_cases hjO : j < t.seatCount
      · exact shrinkFold_lookup_none t.id _ _ _
          (Or.inr ⟨j, by rw [List.mem_range'_1]; omega, rfl⟩)
      · apply shrinkFold_lookup_none t.id _ _ _ (Or.inl ?_)
        by_contra hcon
        have hcon2 : amLookup s.assignments (seatKey t.id j) ≠ none := hcon
        have hksome : seatKey t.id j ∈ amKeys s.assignments := by
          rw [mem_amKeys_iff_lookup]
          exact hcon2
        exact hjO (hjlt j hksome)
    · intro j d hj htl
      obtain ⟨hlk, hdne⟩ := truthyLookup_eq_some_iff.mp htl
      have hksome : seatKey t.id j ∈ amKeys s.assignments := by
        rw [mem_amKeys_iff_lookup, hlk]
        simp
      have hjO : j < t.seatCount := hjlt j hksome
      rw [hupP, mem_reconcilePool]
      refine ⟨ha1 d (mem_assignedVals_of_lookup hlk), ?_⟩
      intro hcon
      have hdvals := (List.mem_filter.mp hcon).1
      have hknd : (amKeys ((List.range' (sanitizeSeatCount q)
          (t.seatCount - sanitizeSeatCount q)).foldl (shrinkStep t.id)
          (s.assignments, [])).1).Nodup :=
        hk.sublist (shrinkFold_facts t.id _ s.assignments []).2
      obtain ⟨k2, hk2⟩ := (mem_assignedVals_iff_lookup hknd).mp hdvals
      by_cases hk2in : ∃ j3 ∈ List.range' (sanitizeSeatCount q)
          (t.seatCount - sanitizeSeatCount q), k2 = seatKey t.id j3
      · rw [shrinkFold_lookup_none t.id _ _ k2 (Or.inr hk2in)] at hk2
        exact Option.noConfusion hk2
      · push_neg at hk2in
        rw [shrinkFold_lookup_other t.id _ _ k2 hk2in] at hk2
        have hkeq := lookup_some_inj hk ha2 hk2 hlk
        exact hk2in j (by rw [List.mem_range'_1]; omega) hkeq
    · intro k hkne
      rw [hupA]
      apply shrinkFold_lookup_other
      intro j hj
      rw [List.mem_range'_1] at hj
      exact hkne j hj.1 (by omega)
  · intro hlt
    have hne : sanitizeSeatCount q ≠ t.seatCount := Nat.ne_of_gt hlt
    have hnlt : ¬ sanitizeSeatCount q < t.seatCount := by omega
    have hupA : (updateSeatCount s tid q).assignments =
        (List.range' t.seatCount
          (sanitizeSeatCount q - t.seatCount)).foldl (growStep t.id)
          s.assignments := by
      simp only [updateSeatCount, hfind, if_neg hne, if_neg hnlt, runEffects]
    refine ⟨?_, ?_⟩
    · intro j hj1 hj2
      rw [hupA]
      exact growFold_lookup_mem t.id _ _ _
        ⟨j, by rw [List.mem_range'_1]; omega, rfl⟩
    · intro k hkne
      rw [hupA]
      apply growFold_lookup_other
      intro j hj
      rw [List.mem_range'_1] at hj
      exact hkne j hj.1 (by omega)

/-- A one-guest state with a two-seat table, the guest on seat t:1; it
satisfies the model invariant and the data-model key discipline. -/
def c6s0 : AppState :=
  { guests := [⟨"g", "G", none⟩],
    tables := [⟨"t", 2, 0, 0⟩],
    assignments := [("t:0", none), ("t:1", some "g")],
    pool := [],
    selected := [] }

/-- Witness instantiating c6_resize_semantics on c6s0, shrinking the table
from 2 seats to 1: the occupant of the removed seat lands in the pool. -/
theorem c6_witness :
    ModelInv c6s0 ∧
    c6s0.tables.find? (fun e => decide (e.id = "t")) = some ⟨"t", 2, 0, 0⟩ ∧
    "g" ∈ (updateSeatCount c6s0 "t" 1).pool := by
  refine ⟨by unfold ModelInv; decide, by decide, ?_⟩
  have h := c6_resize_semantics c6s0 "t" 1 ⟨"t", 2, 0, 0⟩
    (by unfold ModelInv; decide) (by decide) (by decide) (by decide)
  exact (h.2.2.2.1 (by decide)).2.1 1 "g" (by decide) (by decide)


theorem amLookup_filter_of_none {m : AssignMap}
    {p : String × Option String → Bool} {k : String}
    (hv : amLookup m k = none) : amLookup (m.filter p) k = none := by
  induction m with
  | nil => rfl
  | cons kv rest ih =>
    obtain ⟨kh, vh⟩ := kv
    rw [amLookup] at hv
    by_cases hq : kh = k
    · rw [if_pos hq] at hv
      exact Option.noConfusion hv
    · rw [if_neg hq] at hv
      rw [List.filter_cons]
      by_cases hp : p (kh, vh) = true
      · rw [if_pos hp, amLookup, if_neg hq]
        exact ih hv
      · rw [if_neg hp]
        exact ih hv

theorem amLookup_filter_of_kept {m : AssignMap}
    {p : String × Option String → Bool} {k : String} {v : Option String}
    (hknd : (amKeys m).Nodup) (hv : amLookup m k = some v)
    (hp : p (k, v) = true) : amLookup (m.filter p) k = some v := by
  induction m with
  | nil => exact Option.noConfusion hv
  | cons kv rest ih =>
    obtain ⟨kh, vh⟩ := kv
    rw [amKeys_cons, List.nodup_cons] at hknd
    rw [amLookup] at hv
    rw [List.filter_cons]
    by_cases hq : kh = k
    · rw [if_pos hq] at hv
      injection hv with hv
      subst hv
      subst hq
      rw [if_pos hp, amLookup, if_pos rfl]
    · rw [if_neg hq] at hv
      by_cases hp2 : p (kh, vh) = true
      · rw [if_pos hp2, amLookup, if_neg hq]
        exact ih hknd.2 hv
      · rw [if_neg hp2]
        exact ih hknd.2 hv

theorem amLookup_filter_of_dropped {m : AssignMap}
    {p : String × Option String → Bool} {k : String} {v : Option String}
    (hknd : (amKeys m).Nodup) (hv : amLookup m k = some v)
    (hp : p (k, v) = false) : amLookup (m.filter p) k = none := by
  induction m with
  | nil => exact Option.noConfusion hv
  | cons kv rest ih =>
    obtain ⟨kh, vh⟩ := kv
    rw [amKeys_cons, List.nodup_cons] at hknd
    rw [amLookup] at hv
    rw [List.filter_cons]
    by_cases hq : kh = k
    · rw [if_pos hq] at hv
      injection hv with hv
      subst hv
      subst hq
      rw [if_neg (by rw [hp]; exact Bool.false_ne_true)]
      apply amLookup_filter_of_none
      by_contra hc
      exact hknd.1 (mem_amKeys_iff_lookup.mpr hc)
    · rw [if_neg hq] at hv
      by_cases hp2 : p (kh, vh) = true
      · rw [if_pos hp2, amLookup, if_neg hq]
        exact ih hknd.2 hv
      · rw [if_neg hp2]
        exact ih hknd.2 hv

theorem amLookup_filter_eq_some {m : AssignMap}
    {p : String × Option String → Bool} {k : String} {v : Option String}
    (hknd : (amKeys m).Nodup) (h : amLookup (m.filter p) k = some v) :
    amLookup m k = some v ∧ p (k, v) = true := by
  cases hm : amLookup m k with
  | none =>
    rw [amLookup_filter_of_none hm] at h
    exact Option.noConfusion h
  | some w =>
    by_cases hp : p (k, w) = true
    · have hwv := (amLookup_filter_of_kept hknd hm hp).symm.trans h
      injection hwv with hwv
      subst hwv
      exact ⟨rfl, hp⟩
    · rw [amLookup_filter_of_dropped hknd hm (Bool.eq_false_iff.mpr hp)] at h
      exact Option.noConfusion h

theorem strStartsWith_seatKey_self (t : String) (i : Nat) :
    strStartsWith (seatKey t i) (t ++ ":") = true := by
  rw [strStartsWith, List.isPrefixOf_iff_prefix, seatKey_data,
    string_data_append, List.prefix_append_right_inj]
  exact ⟨(Nat.repr i).data, rfl⟩

theorem strStartsWith_seatKey_of_table (t uid : String) (i : Nat)
    (h : strStartsWith (seatKey uid i) (t ++ ":") = true) :
    strStartsWith (uid ++ ":") (t ++ ":") = true := by
  rw [strStartsWith, List.isPrefixOf_iff_prefix] at h ⊢
  rw [seatKey_data] at h
  have hQ : uid.data ++ ':' :: (Nat.repr i).data
      = (uid ++ ":").data ++ (Nat.repr i).data := by
    rw [string_data_append, List.append_assoc]
    rfl
  rw [hQ] at h
  by_cases hlen : ((t ++ ":").data).length ≤ ((uid ++ ":").data).length
  · exact List.prefix_of_prefix_length_le h (List.prefix_append _ _) hlen
  · push_neg at hlen
    exfalso
    have hQP : (uid ++ ":").data <+: (t ++ ":").data :=
      List.prefix_of_prefix_length_le (List.prefix_append _ _) h (le_of_lt hlen)
    obtain ⟨S, hS⟩ := hQP
    have hSne : S ≠ [] := by
      intro h0
      rw [h0, List.append_nil] at hS
      have := congrArg List.length hS
      omega
    have hSR : List.IsPrefix S ((Nat.repr i).data) := by
      rw [← hS] at h
      exact (List.prefix_append_right_inj _).mp h
    have hPdata : (t ++ ":").data = t.data ++ [':'] := by
      rw [string_data_append]
    have hrev : S.reverse ++ ((uid ++ ":").data).reverse
        = ':' :: t.data.reverse := by
      rw [← List.reverse_append, hS, hPdata, List.reverse_append]
      rfl
    cases hSrev : S.reverse with
    | nil => exact hSne (by simpa using congrArg List.reverse hSrev)
    | cons c S2 =>
      rw [hSrev, List.cons_append] at hrev
      injection hrev with h1 h2
      have hcS : ':' ∈ S := by
        rw [← List.mem_reverse, hSrev, h1]
        exact List.mem_cons_self _ _
      obtain ⟨T, hT⟩ := hSR
      refine colon_not_mem_natRepr i ?_
      rw [← hT]
      exact List.mem_append.mpr (Or.inl hcS)


/-- C7 (amended): for a state satisfying the model invariant in which no
OTHER table id extends tid-plus-colon as a prefix (automatic when table ids
contain no colons, but not in general), removeTable(tid) keeps the guest
list, keeps exactly the tables with a different id, removes every seat key
of table tid from the assignment map, returns each occupant of tid to the
pool, leaves the assignment entry of every other table seat unchanged, and
prunes tid seat keys from the selection.  The unamended claim, which
explicitly covers colon-bearing table ids, is refuted by c7_counterexample:
removing table a also strips the seats of table a:0. -/
theorem c7_remove_semantics (s : AppState) (tid : String)
    (hInv : ModelInv s)
    (hNoPre : ∀ u ∈ s.tables, u.id = tid ∨
      strStartsWith (u.id ++ ":") (tid ++ ":") = false) :
    (handleRemoveTable s tid).guests = s.guests ∧
    (∀ u, u ∈ (handleRemoveTable s tid).tables ↔ u ∈ s.tables ∧ u.id ≠ tid) ∧
    (∀ i : Nat,
      amLookup (handleRemoveTable s tid).assignments (seatKey tid i) = none) ∧
    (∀ (i : Nat) (d : String), truthyLookup s.assignments (seatKey tid i) = some d →
      d ∈ (handleRemoveTable s tid).pool) ∧
    (∀ u ∈ s.tables, u.id ≠ tid → ∀ i : Nat,
      amLookup (handleRemoveTable s tid).assignments (seatKey u.id i)
        = amLookup s.assignments (seatKey u.id i)) ∧
    (∀ i : Nat, seatKey tid i ∉ (handleRemoveTable s tid).selected) := by
  obtain ⟨-, -, ha1, ha2, -, -, hk, -⟩ := hInv
  have hupA : (handleRemoveTable s tid).assignments =
      s.assignments.filter (fun kv => !(strStartsWith kv.1 (tid ++ ":"))) := by
    simp only [handleRemoveTable, runEffects]
  have hupT : (handleRemoveTable s tid).tables =
      s.tables.filter (fun u => decide (u.id ≠ tid)) := by
    simp only [handleRemoveTable, runEffects]
  have hupP : (handleRemoveTable s tid).pool =
      reconcilePool s.guests
        (s.assignments.filter (fun kv => !(strStartsWith kv.1 (tid ++ ":"))))
        (returnGuestsToPool s.guests s.pool
          ((s.assignments.filter
            (fun kv => strStartsWith kv.1 (tid ++ ":"))).filterMap
            (fun kv => truthyVal kv.2))) := by
    simp only [handleRemoveTable, runEffects]
  have hupS : (handleRemoveTable s tid).selected =
      (s.selected.filter (fun k => !(strStartsWith k (tid ++ ":")))).filter
        (fun k => (truthyLookup
          (s.assignments.filter
            (fun kv => !(strStartsWith kv.1 (tid ++ ":")))) k).isSome) := by
    simp only [handleRemoveTable, runEffects]
  refine ⟨?_, ?_, ?_, ?_, ?_, ?_⟩
  · simp only [handleRemoveTable, runEffects]
  · intro u
    rw [hupT, List.mem_filter]
    constructor
    · rintro ⟨h1, h2⟩
      exact ⟨h1, of_decide_eq_true h2⟩
    · rintro ⟨h1, h2⟩
      exact ⟨h1, decide_eq_true h2⟩
  · intro i
    rw [hupA]
    cases hm : amLookup s.assignments (seatKey tid i) with
    | none => exact amLookup_filter_of_none hm
    | some v =>
      apply amLookup_filter_of_dropped hk hm
      simp [strStartsWith_seatKey_self]
  · intro i d htl
    obtain ⟨hlk, hdne⟩ := truthyLookup_eq_some_iff.mp htl
    rw [hupP, mem_reconcilePool]
    refine ⟨ha1 d (mem_assignedVals_of_lookup hlk), ?_⟩
    intro hcon
    have hdvals := (List.mem_filter.mp hcon).1
    have hknd : (amKeys (s.assignments.filter
        (fun kv => !(strStartsWith kv.1 (tid ++ ":"))))).Nodup :=
      hk.sublist (amKeys_filter_sublist _ _)
    obtain ⟨k2, hk2⟩ := (mem_assignedVals_iff_lookup hknd).mp hdvals
    obtain ⟨hm2, hp2⟩ := amLookup_filter_eq_some hk hk2
    have hkeq := lookup_some_inj hk ha2 hm2 hlk
    subst hkeq
    simp [strStartsWith_seatKey_self] at hp2
  · intro u hu hne i
    rw [hupA]
    cases hm : amLookup s.assignments (seatKey u.id i) with
    | none => exact amLookup_filter_of_none hm
    | some v =>
      apply amLookup_filter_of_kept hk hm
      rcases hNoPre u hu with h | h
      · exact absurd h hne
      · simp only [Bool.not_eq_true']
        by_contra hc
        have hc2 : strStartsWith (seatKey u.id i) (tid ++ ":") = true := by
          rcases Bool.eq_false_or_eq_true
            (strStartsWith (seatKey u.id i) (tid ++ ":")) with h2 | h2
          · exact h2
          · exact absurd h2 hc
        rw [strStartsWith_seatKey_of_table tid u.id i hc2] at h
        exact Bool.noConfusion h
  · intro i hcon
    rw [hupS] at hcon
    have h1 := (List.mem_filter.mp (List.mem_filter.mp hcon).1).2
    rw [strStartsWith_seatKey_self] at h1
    exact Bool.noConfusion h1

/-- Two tables a and a:0, with a guest seated on table a:0; table ids
contain a colon and a-plus-colon is a prefix of the other id. -/
def c7s0 : AppState :=
  { guests := [⟨"g", "G", none⟩],
    tables := [⟨"a", 1, 0, 0⟩, ⟨"a:0", 1, 0, 0⟩],
    assignments := [("a:0", none), ("a:0:0", some "g")],
    pool := [],
    selected := [] }

/-- Refutation of C7 as stated: in a state with table ids a and a:0 (the
claim explicitly includes colon-bearing ids), removing table a keeps table
a:0 but also strips table a:0-colon-0 seat entry and pools its occupant, so
another table seats are not unchanged. -/
theorem c7_counterexample :
    ModelInv c7s0 ∧
    (⟨"a:0", 1, 0, 0⟩ : Table) ∈ (handleRemoveTable c7s0 "a").tables ∧
    amLookup c7s0.assignments (seatKey "a:0" 0) = some (some "g") ∧
    amLookup (handleRemoveTable c7s0 "a").assignments (seatKey "a:0" 0)
      = none ∧
    (handleRemoveTable c7s0 "a").pool = ["g"] := by
  refine ⟨by unfold ModelInv; decide, by decide, by decide, by decide, by decide⟩

/-- Two colon-free tables t and u with one guest seated on each. -/
def c7s1 : AppState :=
  { guests := [⟨"g", "G", none⟩, ⟨"h", "H", none⟩],
    tables := [⟨"t", 1, 0, 0⟩, ⟨"u", 1, 0, 0⟩],
    assignments := [("t:0", some "g"), ("u:0", some "h")],
    pool := [],
    selected := [] }

/-- Witness instantiating c7_remove_semantics on c7s1: removing table t
pools its occupant and leaves table u seat entry unchanged. -/
theorem c7_witness :
    ModelInv c7s1 ∧
    "g" ∈ (handleRemoveTable c7s1 "t").pool ∧
    amLookup (handleRemoveTable c7s1 "t").assignments (seatKey "u" 0)
      = amLookup c7s1.assignments (seatKey "u" 0) := by
  have h := c7_remove_semantics c7s1 "t" (by unfold ModelInv; decide) (by decide)
  exact ⟨by unfold ModelInv; decide, h.2.2.2.1 0 "g" (by decide),
    h.2.2.2.2.1 ⟨"u", 1, 0, 0⟩ (by decide) (by decide) 0⟩


theorem cleanTable_tableToJson (t : Table) (hid : t.id ≠ "")
    (hsc : 1 ≤ t.seatCount) :
    cleanTable (tableToJson t) =
      some ⟨t.id, .num (t.seatCount : ℚ), t.posX, t.posY⟩ := by
  have h0 : cleanTable (tableToJson t) =
      if t.id = "" ∨ (JsNum.num (t.seatCount : ℚ)).isNaN = true then none
      else some ⟨t.id, (JsNum.num (t.seatCount : ℚ)).floor.max1,
        (JsNum.num t.posX).finiteOr0, (JsNum.num t.posY).finiteOr0⟩ := rfl
  rw [h0, if_neg (by simp [hid, JsNum.isNaN])]
  have hfl : (JsNum.num (t.seatCount : ℚ)).floor.max1
      = JsNum.num (t.seatCount : ℚ) := by
    simp only [JsNum.floor, JsNum.max1, Int.floor_natCast]
    rw [max_eq_right]
    · norm_num
    · push_cast
      exact_mod_cast hsc
  rw [hfl]
  rfl

theorem toTable_cast (t : Table) :
    toTable ⟨t.id, .num (t.seatCount : ℚ), t.posX, t.posY⟩ = t := by
  obtain ⟨i, n, x, y⟩ := t
  simp only [toTable, Int.floor_natCast, Int.toNat_natCast]

theorem cleanGuest_guestToJson (g : Guest) (hid : g.id ≠ "")
    (hname : g.name ≠ "") : cleanGuest (guestToJson g) = some g := by
  obtain ⟨i, n, d⟩ := g
  cases d with
  | none =>
    have h0 : cleanGuest (guestToJson ⟨i, n, none⟩) =
        if i = "" ∨ n = "" then none else some ⟨i, n, none⟩ := rfl
    rw [h0, if_neg (by simp [hid, hname])]
  | some dv =>
    have h0 : cleanGuest (guestToJson ⟨i, n, some dv⟩) =
        if i = "" ∨ n = "" then none else some ⟨i, n, some dv⟩ := rfl
    rw [h0, if_neg (by simp [hid, hname])]

theorem cleanedTables_export (ts : List Table)
    (h : ∀ t ∈ ts, t.id ≠ "" ∧ 1 ≤ t.seatCount) :
    (ts.map tableToJson).filterMap cleanTable =
      ts.map (fun t =>
        (⟨t.id, .num (t.seatCount : ℚ), t.posX, t.posY⟩ : RawCleanTable)) := by
  induction ts with
  | nil => rfl
  | cons t rest ih =>
    rw [List.map_cons, List.filterMap_cons,
      cleanTable_tableToJson t (h t (List.mem_cons_self _ _)).1
        (h t (List.mem_cons_self _ _)).2,
      List.map_cons, ih (fun u hu => h u (List.mem_cons_of_mem _ hu))]

theorem cleanedGuests_export (gs : List Guest)
    (h : ∀ g ∈ gs, g.id ≠ "" ∧ g.name ≠ "") :
    (gs.map guestToJson).filterMap cleanGuest = gs := by
  induction gs with
  | nil => rfl
  | cons g rest ih =>
    rw [List.map_cons, List.filterMap_cons,
      cleanGuest_guestToJson g (h g (List.mem_cons_self _ _)).1
        (h g (List.mem_cons_self _ _)).2,
      ih (fun u hu => h u (List.mem_cons_of_mem _ hu))]

theorem toTable_map_cast (ts : List Table) :
    (ts.map (fun t =>
      (⟨t.id, .num (t.seatCount : ℚ), t.posX, t.posY⟩ : RawCleanTable))).map
        toTable = ts := by
  rw [List.map_map]
  have hcomp : toTable ∘ (fun t =>
      (⟨t.id, .num (t.seatCount : ℚ), t.posX, t.posY⟩ : RawCleanTable)) =
      fun t => t := by
    funext t
    simp only [Function.comp_apply]
    exact toTable_cast t
  rw [hcomp, List.map_id']

theorem filterMap_str_map (l : List String) :
    (l.map JsonValue.str).filterMap
      (fun v => match v with | .str s => some s | _ => none) = l := by
  induction l with
  | nil => rfl
  | cons x rest ih => rw [List.map_cons, List.filterMap_cons, ih]

theorem rawTables_no_inf (ts : List Table) :
    (ts.map (fun t =>
      (⟨t.id, .num (t.seatCount : ℚ), t.posX, t.posY⟩ : RawCleanTable))).any
        (fun t => t.seatCount == JsNum.inf) = false := by
  induction ts with
  | nil => rfl
  | cons t rest ih => rw [List.map_cons, List.any_cons, ih]; rfl


theorem amExt : ∀ (m1 m2 : AssignMap), amKeys m1 = amKeys m2 →
    (amKeys m1).Nodup → (∀ k, amLookup m1 k = amLookup m2 k) → m1 = m2 := by
  intro m1
  induction m1 with
  | nil =>
    intro m2 hkeys _ _
    cases m2 with
    | nil => rfl
    | cons kv rest => simp [amKeys] at hkeys
  | cons kv rest ih =>
    intro m2 hkeys hnd hlk
    obtain ⟨k0, v0⟩ := kv
    cases m2 with
    | nil => simp [amKeys] at hkeys
    | cons kv2 rest2 =>
      obtain ⟨k2, v2⟩ := kv2
      rw [amKeys_cons, amKeys_cons] at hkeys
      injection hkeys with hk02 hkrest
      rw [amKeys_cons, List.nodup_cons] at hnd
      subst hk02
      have hv : v0 = v2 := by
        have h := hlk k0
        rw [amLookup, if_pos rfl, amLookup, if_pos rfl] at h
        injection h
      subst hv
      congr 1
      apply ih rest2 hkrest hnd.2
      intro k
      by_cases hk0 : k0 = k
      · subst hk0
        have h1 : amLookup rest k0 = none := by
          by_contra hc
          exact hnd.1 (mem_amKeys_iff_lookup.mpr hc)
        have h2 : amLookup rest2 k0 = none := by
          by_contra hc
          refine hnd.1 ?_
          rw [hkrest]
          exact mem_amKeys_iff_lookup.mpr hc
        rw [h1, h2]
      · have h := hlk k
        rw [amLookup, if_neg hk0, amLookup, if_neg hk0] at h
        exact h

theorem foldl_amSet_lookup_not_mem :
    ∀ (a0 base : AssignMap) (k : String), k ∉ amKeys a0 →
    amLookup (a0.foldl (fun m kv => amSet m kv.1 kv.2) base) k
      = amLookup base k := by
  intro a0
  induction a0 with
  | nil =>
    intro base k h
    rfl
  | cons kv rest ih =>
    intro base k h
    obtain ⟨k0, v0⟩ := kv
    rw [amKeys_cons, List.mem_cons] at h
    push_neg at h
    rw [List.foldl_cons, ih _ _ h.2, amLookup_amSet, if_neg h.1]

theorem foldl_amSet_lookup_mem :
    ∀ (a0 base : AssignMap) (k : String),
    (amKeys a0).Nodup → k ∈ amKeys a0 →
    amLookup (a0.foldl (fun m kv => amSet m kv.1 kv.2) base) k
      = amLookup a0 k := by
  intro a0
  induction a0 with
  | nil =>
    intro base k _ h
    exact absurd h (List.not_mem_nil k)
  | cons kv rest ih =>
    intro base k hnd h
    obtain ⟨k0, v0⟩ := kv
    rw [amKeys_cons, List.nodup_cons] at hnd
    rw [amKeys_cons, List.mem_cons] at h
    rw [List.foldl_cons]
    rcases h with h | h
    · subst h
      rw [foldl_amSet_lookup_not_mem rest _ _ hnd.1,
        amLookup_amSet, if_pos rfl, amLookup, if_pos rfl]
    · have hne : k ≠ k0 := by
        intro he
        rw [he] at h
        exact hnd.1 h
      rw [ih _ _ hnd.2 h, amLookup, if_neg (fun hc => hne hc.symm)]

theorem foldl_amSet_keys :
    ∀ (a0 base : AssignMap), (∀ kv ∈ a0, kv.1 ∈ amKeys base) →
    amKeys (a0.foldl (fun m kv => amSet m kv.1 kv.2) base) = amKeys base := by
  intro a0
  induction a0 with
  | nil =>
    intro base h
    rfl
  | cons kv rest ih =>
    intro base h
    rw [List.foldl_cons,
      ih _ (fun u hu => by
        rw [amKeys_amSet_of_mem _ (h kv (List.mem_cons_self _ _))]
        exact h u (List.mem_cons_of_mem _ hu)),
      amKeys_amSet_of_mem _ (h kv (List.mem_cons_self _ _))]

theorem populateAssignments_cons (gds : List String) (base : AssignMap)
    (e : String × JsonValue) (es : List (String × JsonValue)) :
    populateAssignments gds base (e :: es)
      = populateAssignments gds
          (if (amLookup base e.1).isSome then
            match e.2 with
            | .str v => if v ∈ gds then amSet base e.1 (some v)
              else amSet base e.1 none
            | _ => amSet base e.1 none
          else base) es := rfl

theorem populateAssignments_export (gds : List String) :
    ∀ (a0 base : AssignMap),
      (∀ kv ∈ a0, kv.1 ∈ amKeys base) →
      (∀ kv ∈ a0, ∀ g, kv.2 = some g → g ∈ gds) →
      populateAssignments gds base
        (a0.map (fun kv => (kv.1, match kv.2 with
          | some g => JsonValue.str g
          | none => JsonValue.null))) =
      a0.foldl (fun m kv => amSet m kv.1 kv.2) base := by
  intro a0
  induction a0 with
  | nil =>
    intro base h1 h2
    rfl
  | cons kv rest ih =>
    intro base h1 h2
    obtain ⟨k0, v0⟩ := kv
    rw [List.map_cons, populateAssignments_cons, List.foldl_cons]
    have hsome : (amLookup base k0).isSome = true :=
      Option.isSome_iff_ne_none.mpr
        (mem_amKeys_iff_lookup.mp (h1 (k0, v0) (List.mem_cons_self _ _)))
    have hbase2 : ∀ v, ∀ u ∈ rest,
        (u : String × Option String).1 ∈ amKeys (amSet base k0 v) := by
      intro v u hu
      rw [amKeys_amSet_of_mem _ (h1 (k0, v0) (List.mem_cons_self _ _))]
      exact h1 u (List.mem_cons_of_mem _ hu)
    have h2r : ∀ kv ∈ rest, ∀ g,
        (kv : String × Option String).2 = some g → g ∈ gds :=
      fun u hu g hg => h2 u (List.mem_cons_of_mem _ hu) g hg
    cases v0 with
    | none =>
      dsimp only
      rw [if_pos hsome]
      exact ih (amSet base k0 none) (hbase2 none) h2r
    | some g =>
      have hg : g ∈ gds := h2 (k0, some g) (List.mem_cons_self _ _) g rfl
      dsimp only
      rw [if_pos hsome, if_pos hg]
      exact ih (amSet base k0 (some g)) (hbase2 (some g)) h2r


/-- C2 (amended): a layout state satisfying the data-model invariants plus
non-empty table ids — non-empty guest ids and names, at least one guest,
table seat counts at least 1, an assignment map whose keys are exactly the
seat keys of the tables in the canonical table-major order the normalizer
itself produces, assigned values naming known guests, and a duplicate-free
pool complementing the assigned set — round-trips through export and the
normalizer to exactly the same state.  The unamended claim over all states
satisfying section 3 is refuted by c2_counterexample: section 3 only
requires table ids unique, and a table whose id is the empty string is
dropped by the import cleaning pass. -/
theorem c2_export_roundtrip (L : LayoutState)
    (hg1 : ∀ g ∈ L.guests, g.id ≠ "" ∧ g.name ≠ "")
    (hg2 : L.guests ≠ [])
    (ht1 : ∀ t ∈ L.tables, t.id ≠ "" ∧ 1 ≤ t.seatCount)
    (hkeys : amKeys L.assignments = amKeys (buildEmptyAssignments L.tables))
    (hknd : (amKeys L.assignments).Nodup)
    (hvals : ∀ g ∈ assignedVals L.assignments, g ∈ gids L.guests)
    (hp1 : L.pool.Nodup)
    (hp2 : ∀ g ∈ L.pool, g ∈ gids L.guests ∧ g ∉ assignedVals L.assignments)
    (hp3 : ∀ g ∈ gids L.guests, g ∉ assignedVals L.assignments → g ∈ L.pool) :
    normalizeLayoutPayload (exportSnapshot L) = .ok L := by
  have hstep : normalizeLayoutPayload (exportSnapshot L) =
      normalizeBody
        [("version", JsonValue.num (.num 1)),
         ("guests", .arr (L.guests.map guestToJson)),
         ("tables", .arr (L.tables.map tableToJson)),
         ("assignments", .obj (L.assignments.map
           (fun kv => (kv.1, match kv.2 with
             | some g => JsonValue.str g
             | none => JsonValue.null)))),
         ("unassigned", .arr (L.pool.map JsonValue.str))]
        (L.tables.map tableToJson) (L.guests.map guestToJson)
        (.obj (L.assignments.map
          (fun kv => (kv.1, match kv.2 with
            | some g => JsonValue.str g
            | none => JsonValue.null)))) := rfl
  have hsnap : poolSnapshotOf
      [("version", JsonValue.num (.num 1)),
       ("guests", .arr (L.guests.map guestToJson)),
       ("tables", .arr (L.tables.map tableToJson)),
       ("assignments", .obj (L.assignments.map
         (fun kv => (kv.1, match kv.2 with
           | some g => JsonValue.str g
           | none => JsonValue.null)))),
       ("unassigned", .arr (L.pool.map JsonValue.str))] = L.pool := by
    have h0 : poolSnapshotOf
        [("version", JsonValue.num (.num 1)),
         ("guests", .arr (L.guests.map guestToJson)),
         ("tables", .arr (L.tables.map tableToJson)),
         ("assignments", .obj (L.assignments.map
           (fun kv => (kv.1, match kv.2 with
             | some g => JsonValue.str g
             | none => JsonValue.null)))),
         ("unassigned", .arr (L.pool.map JsonValue.str))] =
        (L.pool.map JsonValue.str).filterMap
          (fun v => match v with | .str s => some s | _ => none) := rfl
    rw [h0, filterMap_str_map]
  have hmemk : ∀ kv ∈ L.assignments,
      (kv : String × Option String).1 ∈
        amKeys (buildEmptyAssignments L.tables) := by
    intro kv hkv
    rw [← hkeys]
    simp only [amKeys]
    exact List.mem_map.mpr ⟨kv, hkv, rfl⟩
  have hvg : ∀ kv ∈ L.assignments, ∀ g,
      (kv : String × Option String).2 = some g → g ∈ gids L.guests := by
    intro kv hkv g hg
    apply hvals
    simp only [assignedVals, List.mem_filterMap]
    exact ⟨kv, hkv, by rw [hg]⟩
  have hA : populateAssignments (gids L.guests)
      (buildEmptyAssignments L.tables)
      (L.assignments.map (fun kv => (kv.1, match kv.2 with
        | some g => JsonValue.str g
        | none => JsonValue.null))) = L.assignments := by
    rw [populateAssignments_export (gids L.guests) L.assignments
      (buildEmptyAssignments L.tables) hmemk hvg]
    apply amExt
    · rw [foldl_amSet_keys _ _ hmemk, ← hkeys]
    · rw [foldl_amSet_keys _ _ hmemk, ← hkeys]
      exact hknd
    · intro k
      by_cases hk : k ∈ amKeys L.assignments
      · exact foldl_amSet_lookup_mem _ _ _ hknd hk
      · rw [foldl_amSet_lookup_not_mem _ _ _ hk]
        have h1 : amLookup (buildEmptyAssignments L.tables) k = none := by
          by_contra hc
          exact hk (hkeys ▸ mem_amKeys_iff_lookup.mpr hc)
        have h2 : amLookup L.assignments k = none := by
          by_contra hc
          exact hk (mem_amKeys_iff_lookup.mpr hc)
        rw [h1, h2]
  have hfil : (assignedVals L.assignments).filter
      (fun g => decide (g ∈ gids L.guests)) = assignedVals L.assignments :=
    List.filter_eq_self.mpr (fun a ha => decide_eq_true (hvals a ha))
  have hpool : normalizePool (gids L.guests) (assignedVals L.assignments)
      L.pool = L.pool :=
    normalizePool_eq_self hp1 hp2 hp3
  rw [hstep]
  simp only [normalizeBody, cleanedGuests_export L.guests hg1,
    cleanedTables_export L.tables ht1, rawTables_no_inf, toTable_map_cast,
    entriesOf, hA, hsnap, hfil, hpool, if_neg hg2, Bool.false_eq_true,
    if_false]


/-- A layout state satisfying every section 3 invariant — the table id is
unique, its seat key :0 is exactly the assignment key set — whose single
table has the empty string as id. -/
def c2L0 : LayoutState :=
  { guests := [⟨"g", "G", none⟩],
    tables := [⟨"", 1, 0, 0⟩],
    assignments := [(":0", none)],
    pool := ["g"] }

/-- Refutation of C2 as stated: c2L0 satisfies the section 3 invariants
(unique table id, seat count 1, assignment keys exactly the seat keys,
pool complementing the assignments), yet the round trip drops the
empty-id table, returning a state with no tables. -/
theorem c2_counterexample :
    (∀ g ∈ c2L0.guests, g.id ≠ "" ∧ g.name ≠ "") ∧
    c2L0.guests ≠ [] ∧
    (∀ t ∈ c2L0.tables, 1 ≤ t.seatCount) ∧
    amKeys c2L0.assignments = amKeys (buildEmptyAssignments c2L0.tables) ∧
    (∀ g ∈ c2L0.pool, g ∈ gids c2L0.guests ∧
      g ∉ assignedVals c2L0.assignments) ∧
    c2L0.pool.Nodup ∧
    normalizeLayoutPayload (exportSnapshot c2L0) =
      .ok { guests := c2L0.guests, tables := [], assignments := [],
            pool := ["g"] } ∧
    c2L0.tables ≠ [] := by
  refine ⟨by decide, by decide, by decide, by decide, by decide, by decide,
    by decide, by decide⟩

/-- A one-guest, one-table, one-seat layout state in canonical form. -/
def c2Lw : LayoutState :=
  { guests := [⟨"g", "G", none⟩],
    tables := [⟨"t", 1, 0, 0⟩],
    assignments := [("t:0", some "g")],
    pool := [] }

/-- Witness instantiating c2_export_roundtrip on the concrete state c2Lw. -/
theorem c2_witness :
    (∀ t ∈ c2Lw.tables, t.id ≠ "" ∧ 1 ≤ t.seatCount) ∧
    normalizeLayoutPayload (exportSnapshot c2Lw) = .ok c2Lw := by
  refine ⟨by decide, ?_⟩
  exact c2_export_roundtrip c2Lw (by decide) (by decide) (by decide)
    (by decide) (by decide) (by decide) (by decide) (by decide) (by decide)

end WeddingLayout
